import Mathlib

/-!
Verification development for the mcp-openapi-server repository.

Shallow embedding of the core pure algorithms: the tool-identifier codec,
path-parameter interpolation, the operation-id abbreviator, the tools-manager
filtering modes, the server's call-tool dispatch and error wrapping, custom
tool registration, and the prompts manager.

Strings are processed as `List Char`; JavaScript `String.prototype.replace`
with a global regex is modelled by explicit left-to-right scanners with the
same leftmost-match semantics.  Recursions that are not structural carry an
explicit fuel argument (always instantiated with the input length, which is
sufficient) so that all definitions evaluate inside the kernel.

The file is organised as: all definitions first, then all theorems.
-/

set_option linter.unusedVariables false

/-- Whether `pre` is a prefix of the character list `l`. -/
def startsWithList : List Char → List Char → Bool
  | [], _ => true
  | _ :: _, [] => false
  | p :: pre, c :: l => p = c && startsWithList pre l

/-- Character-wise ASCII lowercasing (JS `toLowerCase` on the identifiers
involved); evaluated through the character list so that it reduces inside
the kernel. -/
def strLower (s : String) : String :=
  String.mk (s.toList.map Char.toLower)

/-- Lookup in an association list keyed by strings; models both
`Map.prototype.get` and plain-object property access in the source. -/
def lookupAssoc {α : Type} (m : List (String × α)) (k : String) : Option α :=
  (m.find? (fun p => p.1 = k)).map (fun p => p.2)

namespace ToolId

/-- Characters that survive tool-id sanitisation: the class
`[a-zA-Z0-9_:-]` kept when encoding a path into a tool id. -/
def allowedChar (c : Char) : Bool :=
  c.isAlpha || c.isDigit || c = '_' || c = ':' || c = '-'

/-- Whether a character list contains two adjacent colons. -/
def hasDoubleColon : List Char → Bool
  | c1 :: c2 :: rest => (c1 = ':' && c2 = ':') || hasDoubleColon (c2 :: rest)
  | _ => false

/-- Strip a single leading slash, as the encoder does on the path. -/
def stripLeadingSlash : List Char → List Char
  | [] => []
  | c :: rest => if c = '/' then rest else c :: rest

/-- Scan up to the first closing brace; return the characters before it and
the remainder after it.  Mirrors the `[^}]*` part of the JS regex
`\{([^}]+)\}` used to turn path parameters into `---name` markers. -/
def takeUntilRBrace : List Char → Option (List Char × List Char)
  | [] => none
  | c :: rest =>
    if c = '}' then some ([], rest)
    else (takeUntilRBrace rest).map (fun p => (c :: p.1, p.2))

/-- Fuelled worker for `replaceBraces`; the fuel only serves to make the
recursion structural, `replaceBraces` always supplies enough. -/
def rbF : Nat → List Char → List Char
  | 0, l => l
  | _ + 1, [] => []
  | fuel + 1, c :: rest =>
    if c = '{' then
      match takeUntilRBrace rest with
      | some (i, a) =>
        if i.isEmpty then c :: rbF fuel rest
        else '-' :: '-' :: '-' :: (i ++ rbF fuel a)
      | none => c :: rbF fuel rest
    else c :: rbF fuel rest

/-- Modelled from the spec: encoding rule 3 of the tool-id codec
(`src/utils/tool-id.ts` is absent from the snapshot).  Each `{param}`
group becomes `---param`; a brace that opens no well-formed group is kept
(and later sanitised).  Matches the JS global replace of
`\{([^}]+)\}` by `---$1`. -/
def replaceBraces (l : List Char) : List Char :=
  rbF l.length l

/-- Modelled from the spec: encoding rule 2, `/` separators become `__`. -/
def expandSlashes : List Char → List Char
  | [] => []
  | c :: rest => if c = '/' then '_' :: '_' :: expandSlashes rest else c :: expandSlashes rest

/-- Modelled from the spec: encoding rule 5, characters outside the allowed
class are replaced by `-`. -/
def sanitize (l : List Char) : List Char :=
  l.map (fun c => if allowedChar c then c else '-')

/-- Uppercase an ASCII method name character-wise, as `method.toUpperCase()`. -/
def toUpperList (l : List Char) : List Char :=
  l.map Char.toUpper

/-- Modelled from the spec: the tool-id encoder.  Rejects paths containing
`::` (they collide with the method separator), requires a non-empty method,
then emits `METHOD::` followed by the path with the leading `/` stripped,
`{param}` turned into `---param`, `/` turned into `__`, and remaining
characters outside `[a-zA-Z0-9_:-]` replaced by `-`.  The exact
input/output pairs are pinned by `src/test/google-rpc-colon.test.ts`. -/
def generateToolId (method path : String) : Except String String :=
  if hasDoubleColon path.toList then
    .error ("Path " ++ path ++ " contains double colons (::) which conflicts with the internal tool ID separator")
  else if method.isEmpty then
    .error ("Method must not be empty")
  else
    .ok (String.mk (toUpperList method.toList ++ ':' :: ':' ::
      sanitize (expandSlashes (replaceBraces (stripLeadingSlash path.toList)))))

/-- Split a character list at the first occurrence of `::`. -/
def splitOnDoubleColon : List Char → Option (List Char × List Char)
  | c1 :: c2 :: rest =>
    if c1 = ':' && c2 = ':' then some ([], rest)
    else (splitOnDoubleColon (c2 :: rest)).map (fun p => (c1 :: p.1, p.2))
  | _ => none

/-- Replace each (leftmost, non-overlapping) `__` by `/`. -/
def undoUnderscores : List Char → List Char
  | c1 :: c2 :: rest =>
    if c1 = '_' && c2 = '_' then '/' :: undoUnderscores rest
    else c1 :: undoUnderscores (c2 :: rest)
  | l => l

/-- Modelled from the spec: the tool-id decoder.  Splits at the first `::`
into method and remainder, replaces `__` by `/` in the remainder and
prepends `/`.  Decoding keeps `---name` markers verbatim (it does NOT
restore `{name}`), as pinned by `src/test/google-rpc-colon.test.ts`. -/
def parseToolId (toolId : String) : Option (String × String) :=
  (splitOnDoubleColon toolId.toList).map
    (fun p => (String.mk p.1, String.mk ('/' :: undoUnderscores p.2)))

/-- Characters that may appear verbatim in a well-formed OpenAPI path for the
purposes of the round-trip law: letters, digits, `:`, `-` and `/`. -/
def plainChar (c : Char) : Bool :=
  c.isAlpha || c.isDigit || c = ':' || c = '-' || c = '/'

/-- Uppercase ASCII letter test, keyed on the code point. -/
def isUpperAlpha (c : Char) : Bool :=
  decide (65 ≤ c.toNat) && decide (c.toNat ≤ 90)

/-- Well-formed path tails for the round-trip law: a mix of plain characters
and `{name}` parameter groups with non-empty alphanumeric names. -/
inductive PathOk : List Char → Prop where
  | nil : PathOk []
  | plain {c : Char} {rest : List Char} :
      plainChar c = true → PathOk rest → PathOk (c :: rest)
  | param {nm rest : List Char} :
      nm ≠ [] → (∀ c ∈ nm, (c.isAlpha || c.isDigit) = true) →
      PathOk rest → PathOk ('{' :: (nm ++ '}' :: rest))

end ToolId

namespace Interp

/-- The characters `encodeURIComponent` leaves untouched. -/
def isUnreservedChar (c : Char) : Bool :=
  c.isAlpha || c.isDigit || c = '-' || c = '_' || c = '.' || c = '!' ||
  c = '~' || c = '*' || c = Char.ofNat 39 || c = '(' || c = ')'

/-- Uppercase hexadecimal digits, as used in percent escapes. -/
def hexUpper : List Char :=
  ("0123456789ABCDEF").toList

/-- Percent-escape one byte. -/
def pctByte (b : Nat) : List Char :=
  '%' :: hexUpper.getD (b / 16 % 16) ('0') :: [hexUpper.getD (b % 16) ('0')]

/-- UTF-8 bytes of one code point. -/
def utf8Bytes (c : Char) : List Nat :=
  let n := c.toNat
  if n < 128 then [n]
  else if n < 2048 then [192 + n / 64, 128 + n % 64]
  else if n < 65536 then [224 + n / 4096, 128 + n / 64 % 64, 128 + n % 64]
  else [240 + n / 262144, 128 + n / 4096 % 64, 128 + n / 64 % 64, 128 + n % 64]

/-- Character-list worker of `encodeURIComponent`. -/
def encChars : List Char → List Char
  | [] => []
  | c :: rest =>
    (if isUnreservedChar c then [c] else (utf8Bytes c).flatMap pctByte) ++ encChars rest

/-- JavaScript `encodeURIComponent`, modelled on the standard unreserved set
with UTF-8 percent-escapes for everything else. -/
def encodeURIComponent (s : String) : String :=
  String.mk (encChars s.toList)

/-- Try the third regex alternative `---key(?=__|/|:|$)` at the head of `l`:
the `---key` part is consumed, the lookahead is not. -/
def tryDashParam (K l : List Char) : Option (Bool × List Char) :=
  if startsWithList ('-' :: '-' :: '-' :: K) l then
    let rest := l.drop (K.length + 3)
    if startsWithList ['_', '_'] rest || startsWithList ['/'] rest ||
        startsWithList [':'] rest || rest.isEmpty then
      some (false, rest)
    else none
  else none

/-- Try the parameter-binding regex
`\{key\}|:key(?:\/|$)|---key(?=__|/|:|$)` at the head of `l`, alternatives
in order, as transcribed from `api-client.ts` in
`src/test/content-loader.test.ts`.  On success returns whether the match
consumed a trailing `/` (second alternative) and the unconsumed remainder. -/
def matchParamAt (K l : List Char) : Option (Bool × List Char) :=
  if startsWithList ('{' :: (K ++ ['}'])) l then some (false, l.drop (K.length + 2))
  else if startsWithList (':' :: K) l then
    match l.drop (K.length + 1) with
    | [] => some (false, [])
    | '/' :: rest => some (true, rest)
    | _ => tryDashParam K l
  else tryDashParam K l

/-- Fuelled global-replace scanner: leftmost match, replacement `repl` plus a
restored `/` when the match ended in one, continue after the match. -/
def rpF (K repl : List Char) : Nat → List Char → List Char
  | 0, l => l
  | _ + 1, [] => []
  | fuel + 1, c :: rest =>
    match matchParamAt K (c :: rest) with
    | some (slash, rem) =>
      repl ++ (if slash then '/' :: rpF K repl fuel rem else rpF K repl fuel rem)
    | none => c :: rpF K repl fuel rest

/-- Bind one path parameter: replace every regex match of the parameter
marker in `path` by the URL-encoded `value`, as the request executor does. -/
def replacePathParam (path key value : String) : String :=
  String.mk (rpF key.toList (encodeURIComponent value).toList path.toList.length path.toList)

end Interp

namespace Abbrev

/-- Lowercase letter or digit. -/
def isLowerAlnum (c : Char) : Bool :=
  c.isLower || c.isDigit

/-- Letter or digit. -/
def isAlnum (c : Char) : Bool :=
  c.isAlpha || c.isDigit

/-- Token boundary inside an alphanumeric run: camel-case transition or a
letter/digit transition. -/
def boundary (p c : Char) : Bool :=
  (p.isLower && c.isUpper) || (p.isAlpha && c.isDigit) || (p.isDigit && c.isAlpha)

/-- Collect maximal alphanumeric runs, dropping delimiter characters
(underscores, hyphens, spaces, punctuation).  `cur` is the reversed run
being built. -/
def runsAux (cur : List Char) : List Char → List (List Char)
  | [] => if cur.isEmpty then [] else [cur.reverse]
  | c :: rest =>
    if isAlnum c then runsAux (c :: cur) rest
    else if cur.isEmpty then runsAux [] rest
    else cur.reverse :: runsAux [] rest

/-- Maximal alphanumeric runs of the input. -/
def alnumRuns (l : List Char) : List (List Char) :=
  runsAux [] l

/-- Split one alphanumeric run at camel-case and letter/digit boundaries.
`cur` is the reversed token being built and is always non-empty. -/
def splitRunAux (cur : List Char) : List Char → List (List Char)
  | [] => [cur.reverse]
  | c :: rest =>
    match cur with
    | [] => splitRunAux [c] rest
    | p :: _ =>
      if boundary p c then cur.reverse :: splitRunAux [c] rest
      else splitRunAux (c :: cur) rest

/-- Split an alphanumeric run into camel-case/digit tokens. -/
def splitRun : List Char → List (List Char)
  | [] => []
  | c :: rest => splitRunAux [c] rest

/-- Modelled from the spec: abbreviation step 1 (`openapi-loader.ts` is
absent from the snapshot).  Split the operation id on delimiters,
camel-case boundaries and digit boundaries, and lowercase the tokens. -/
def tokenize (l : List Char) : List (List Char) :=
  ((alnumRuns l).flatMap splitRun).map (List.map Char.toLower)

/-- Modelled from the spec: common filler tokens dropped in step 2.  The
spec's list also names `service` and `method`, but the repository test
`Controller_Service_API_Method → svc-method` pins that those are kept;
the test `My Operation With Spaces → my-spaces` pins that `operation`
is dropped. -/
def commonWords : List String :=
  ["controller", "api", "operation", "the", "and", "for", "with"]

/-- Modelled from the spec: the fixed abbreviation dictionary of step 3,
extended with the plural and gerund forms pinned by the repository tests. -/
def abbrevDict : List (String × String) :=
  [("management", "mgmt"), ("user", "usr"), ("users", "usrs"),
   ("service", "svc"), ("services", "svcs"), ("resource", "resrc"),
   ("resources", "resrcs"), ("update", "upd"), ("updating", "upd"),
   ("configuration", "config"), ("authority", "auth"), ("group", "grp"),
   ("identifier", "id"), ("list", "lst")]

/-- Apply the abbreviation dictionary to one token. -/
def abbreviateToken (t : List Char) : List Char :=
  match abbrevDict.find? (fun p => p.1 = String.mk t) with
  | some p => p.2.toList
  | none => t

/-- Lowercase vowel test. -/
def isVowel (c : Char) : Bool :=
  c = 'a' || c = 'e' || c = 'i' || c = 'o' || c = 'u'

/-- Modelled from the spec: step 4, drop interior vowels of tokens longer
than four characters (the first character is always kept). -/
def dropInteriorVowels (t : List Char) : List Char :=
  if 4 < t.length then
    match t with
    | [] => []
    | c :: rest => c :: rest.filter (fun d => !(isVowel d))
  else t

/-- Join tokens with single hyphens. -/
def joinTokens : List (List Char) → List Char
  | [] => []
  | [t] => t
  | t :: ts => t ++ '-' :: joinTokens ts

/-- Drop trailing hyphens (after truncation may cut mid-token). -/
def stripTrailingHyphens (l : List Char) : List Char :=
  (l.reverse.dropWhile (fun c => c = '-')).reverse

/-- Lowercase hexadecimal digits. -/
def hexLower : List Char :=
  ("0123456789abcdef").toList

/-- A deterministic 32-bit accumulator over the characters; stands in for
the SHA-style digest named by the spec (the concrete digest function is
not in the snapshot). -/
def hashAcc (l : List Char) : Nat :=
  l.foldl (fun a c => (a * 31 + c.toNat) % 4294967296) 5381

/-- Render `len` lowercase hex digits of `n` (most significant first). -/
def hexOfNat (n len : Nat) : List Char :=
  (List.range len).map (fun i => hexLower.getD (n / 16 ^ (len - 1 - i) % 16) ('0'))

/-- Digest of a string as `len` lowercase hex characters. -/
def hashHex (s : String) (len : Nat) : List Char :=
  hexOfNat (hashAcc s.toList) len

/-- Adjacent-hyphen test. -/
def hasDoubleHyphen : List Char → Bool
  | c1 :: c2 :: rest => (c1 = '-' && c2 = '-') || hasDoubleHyphen (c2 :: rest)
  | _ => false

/-- Whether a character list is already a well-formed tool-name body:
non-empty, only lowercase alphanumerics and hyphens, no adjacent, leading
or trailing hyphen. -/
def isValidBase (l : List Char) : Bool :=
  !l.isEmpty && l.all (fun c => isLowerAlnum c || c = '-') &&
  !(match l.head? with
    | some c => c = '-'
    | none => false) &&
  !(match l.getLast? with
    | some c => c = '-'
    | none => false) &&
  !(hasDoubleHyphen l)

/-- Modelled from the spec: the operation-id abbreviator of §4.2
(`openapi-loader.ts` is absent from the snapshot).  A short, already valid
name is returned unchanged (test: `short-and-valid`).  Otherwise tokenise,
drop filler words, apply the abbreviation dictionary, drop interior vowels
when still too long, then either return the joined name, or — when the
input was longer than the limit or the name still is — truncate to
`maxLen - 5` and append `-` plus four hex digest characters; an input with
no usable tokens becomes `tool-` plus eight digest characters, and an
empty input becomes `unnamed-tool`, as pinned by the tests in
`src/test/content-loader.test.ts`. -/
def pipelineTokens (opId : String) (maxLen : Nat) : List (List Char) :=
  let toks1 := (tokenize opId.toList).filter (fun t => !(commonWords.contains (String.mk t)))
  let toks2 := toks1.map abbreviateToken
  if maxLen < (joinTokens toks2).length then toks2.map dropInteriorVowels else toks2

def abbreviateOperationId (opId : String) (maxLen : Nat) : String :=
  if opId.isEmpty then "unnamed-tool"
  else if isValidBase opId.toList && decide (opId.toList.length ≤ maxLen) then opId
  else
    let base := joinTokens (pipelineTokens opId maxLen)
    if base.isEmpty then String.mk (("tool-").toList ++ hashHex opId 8)
    else if maxLen < opId.length || maxLen < base.length then
      String.mk (stripTrailingHyphens (base.take (maxLen - 5)) ++ '-' :: hashHex opId 4)
    else String.mk base

/-- A well-formed intermediate token: non-empty, lowercase alphanumerics. -/
def GoodTok (t : List Char) : Prop :=
  t ≠ [] ∧ ∀ c ∈ t, isLowerAlnum c = true

/-- A well-formed tool-name character list: non-empty, lowercase
alphanumerics and hyphens, no leading, trailing or adjacent hyphen. -/
def NiceList (l : List Char) : Prop :=
  l ≠ [] ∧ (∀ c ∈ l, (isLowerAlnum c || c = '-') = true) ∧
  l.head? ≠ some '-' ∧ l.getLast? ≠ some '-' ∧ hasDoubleHyphen l = false

end Abbrev

namespace Manager

/-- JSON-schema fragment as carried on synthesised and meta tools. -/
inductive JSchema where
  | mk (type : String) (description : Option String)
       (properties : List (String × JSchema)) (required : List String)
       (enumVals : List String)

/-- A tool as stored in the tools-manager registry: the MCP surface fields
plus the extended metadata the loader attaches (absent on meta-tools). -/
structure ExtendedTool where
  name : String
  description : String
  inputSchema : JSchema
  httpMethod : Option String
  resourceName : Option String
  tags : Option (List String)
  originalPath : Option String

/-- The filtering-related slice of `OpenAPIMCPServerConfig`. -/
structure Config where
  toolsMode : Option String
  includeTools : Option (List String)
  includeOperations : Option (List String)
  includeResources : Option (List String)
  includeTags : Option (List String)
deriving DecidableEq

/-- The constructor default: a missing or empty `toolsMode` means `all`. -/
def effectiveToolsMode (cfg : Config) : String :=
  match cfg.toolsMode with
  | none => "all"
  | some s => if s = "" then "all" else s

/-- Lowercase every entry, as the filter precomputation does. -/
def lowerList (l : List String) : List String :=
  l.map strLower

/-- The three dynamic discovery meta-tools created by
`ToolsManager.createDynamicTools`, with their registry keys. -/
def createDynamicTools : List (String × ExtendedTool) :=
  [(("LIST-API-ENDPOINTS"),
    ⟨"list-api-endpoints", "List all available API endpoints",
     JSchema.mk "object" none [] [] [], none, none, none, none⟩),
   (("GET-API-ENDPOINT-SCHEMA"),
    ⟨"get-api-endpoint-schema", "Get the JSON schema for a specified API endpoint",
     JSchema.mk "object" none
       [(("endpoint"),
         JSchema.mk "string" (some "Endpoint path (e.g. /users/\x7bid\x7d)") [] [] [])]
       ["endpoint"] [],
     none, none, none, none⟩),
   (("INVOKE-API-ENDPOINT"),
    ⟨"invoke-api-endpoint", "Invoke an API endpoint with provided parameters",
     JSchema.mk "object" none
       [(("endpoint"),
         JSchema.mk "string" (some "Endpoint path to invoke (e.g. /users/\x7bid\x7d)") [] [] []),
        (("method"),
         JSchema.mk "string" (some "HTTP method to use (optional, e.g. GET, POST, PUT, DELETE)")
           [] [] ["GET", "POST", "PUT", "PATCH", "DELETE", "OPTIONS", "HEAD"]),
        (("params"),
         JSchema.mk "object" (some "Parameters for the API call") [] [] [])]
       ["endpoint"] [],
     none, none, none, none⟩)]

/-- The per-tool keep decision of `ToolsManager.initialize` in `all` mode:
`includeTools` has highest priority (a non-empty list admits exactly the
id/name matches and skips the other filters); otherwise the non-empty
filters among operations (http method), resources (the tool's
`resourceName`) and tags must all pass, case-insensitively. -/
def allModeKeep (cfg : Config) (tid : String) (t : ExtendedTool) : Bool :=
  let incT := lowerList (cfg.includeTools.getD [])
  let incO := lowerList (cfg.includeOperations.getD [])
  let incR := lowerList (cfg.includeResources.getD [])
  let incG := lowerList (cfg.includeTags.getD [])
  if !incT.isEmpty then
    incT.contains (strLower tid) || incT.contains (strLower t.name)
  else
    (incO.isEmpty ||
      (match t.httpMethod with
       | some m => incO.contains (strLower m)
       | none => false)) &&
    (incR.isEmpty ||
      (match t.resourceName with
       | some r => incR.contains (strLower r)
       | none => false)) &&
    (incG.isEmpty ||
      ((t.tags.getD []).any (fun tg => incG.contains (strLower tg))))

/-- `ToolsManager.initialize` restricted to its pure content: the registry
computed from the (already synthesised) raw tools and the configuration.
`dynamic` mode discards the raw tools and installs the three meta-tools;
`explicit` mode keeps only id/name matches of `includeTools` (nothing when
it is empty or absent); `all` mode filters with `allModeKeep`. -/
def initializeTools (cfg : Config) (rawTools : List (String × ExtendedTool)) :
    List (String × ExtendedTool) :=
  if effectiveToolsMode cfg = "dynamic" then createDynamicTools
  else if effectiveToolsMode cfg = "explicit" then
    match cfg.includeTools with
    | some ts =>
      if 0 < ts.length then
        rawTools.filter (fun p =>
          (lowerList ts).contains (strLower p.1) || (lowerList ts).contains (strLower p.2.name))
      else []
    | none => []
  else rawTools.filter (fun p => allModeKeep cfg p.1 p.2)

/-- `ToolsManager.findTool`: case-insensitive lookup, ids before names. -/
def findToolEntry (tools : List (String × ExtendedTool)) (idOrName : String) :
    Option (String × ExtendedTool) :=
  match tools.find? (fun p => strLower p.1 = strLower idOrName) with
  | some p => some p
  | none => tools.find? (fun p => strLower p.2.name = strLower idOrName)

/-- Follows the claim's words (for comparison with the code): the
`includeResources` filter understood as "some entry is a prefix of the
tool's `originalPath`". -/
def claimResourcesKeep (cfg : Config) (t : ExtendedTool) : Bool :=
  (cfg.includeResources.getD []).isEmpty ||
  (cfg.includeResources.getD []).any
    (fun r => startsWithList r.toList (t.originalPath.getD "").toList)

/-- Sample synthesised tool for the resources-filter counterexample: a GET
on `/users/detail`, whose `resourceName` is the first path segment. -/
def toolUsers : ExtendedTool :=
  ⟨"get-usrs-detail", "Get user detail", JSchema.mk "object" none [] [] [],
   some "get", some "users", some ["users"], some "/users/detail"⟩

/-- Sample configuration for the resources-filter counterexample:
`all` mode with `includeResources = ["/users"]` and no other filter. -/
def cfgResources : Config :=
  ⟨some "all", none, none, some ["/users"], none⟩

/-- Sample raw registry holding just `toolUsers`. -/
def rawUsers : List (String × ExtendedTool) :=
  [(("GET::users__detail"), toolUsers)]

/-- Sample configuration: `dynamic` mode. -/
def cfgDynamic : Config :=
  ⟨some "dynamic", none, none, none, none⟩

/-- Sample configuration: `explicit` mode with an empty `includeTools` and
every other filter set. -/
def cfgExplicitEmpty : Config :=
  ⟨some "explicit", some [], some ["get"], some ["users"], some ["users"]⟩

/-- Sample configuration: `all` mode with no filters. -/
def cfgAllNone : Config :=
  ⟨some "all", none, none, none, none⟩

end Manager

namespace Server

/-- A registered custom tool; the handler function reference is modelled
opaquely by a numeric identity. -/
structure CustomToolDef where
  name : String
  description : String
  inputSchema : Manager.JSchema
  handler : Nat

/-- The payload of `registerTool`'s second argument (the definition without
the name). -/
structure CustomToolBody where
  description : String
  inputSchema : Manager.JSchema
  handler : Nat

/-- A thrown JavaScript value: either an `Error` instance carrying a
message, or any other value (reshaped to a string for the model). -/
inductive Thrown where
  | errorInstance (message : String)
  | nonError (value : String)
deriving DecidableEq

/-- One entry of an MCP result's `content` array. -/
structure ContentItem where
  type : String
  text : String
deriving DecidableEq

/-- An MCP `tools/call` result. -/
structure CallToolResult where
  content : List ContentItem
  isError : Bool
deriving DecidableEq

/-- Resolution outcome of a `tools/call` lookup. -/
inductive CallTarget where
  | openapi (toolId : String) (tool : Manager.ExtendedTool)
  | custom (tool : CustomToolDef)
  | notFound (message : String)

/-- The lookup order of the `CallToolRequestSchema` handler: OpenAPI tools
first via `ToolsManager.findTool` (case-insensitive, ids before names),
then the custom-tool map under the exact string, else the
`Tool not found` error. -/
def resolveCallTarget (openapiTools : List (String × Manager.ExtendedTool))
    (customTools : List (String × CustomToolDef)) (idOrName : String) : CallTarget :=
  match Manager.findToolEntry openapiTools idOrName with
  | some p => .openapi p.1 p.2
  | none =>
    match lookupAssoc customTools idOrName with
    | some ct => .custom ct
    | none => .notFound ("Tool not found: " ++ idOrName)

/-- The OpenAPI branch of the handler around `executeApiCall`: a successful
payload is wrapped as a text content item; a thrown `Error` becomes an
in-result error (`isError` true); any other thrown value is re-thrown. -/
def handleOpenApiOutcome (exec : Except Thrown String) : Except Thrown CallToolResult :=
  match exec with
  | .ok payload => .ok ⟨[⟨"text", payload⟩], false⟩
  | .error (Thrown.errorInstance msg) => .ok ⟨[⟨"text", "Error: " ++ msg⟩], true⟩
  | .error e => .error e

/-- The custom-tool branch of the handler around `customTool.handler`: the
handler's own result is passed through; a thrown `Error` becomes an
in-result error (`isError` true); any other thrown value is re-thrown. -/
def handleCustomOutcome (res : Except Thrown CallToolResult) : Except Thrown CallToolResult :=
  match res with
  | .ok r => .ok r
  | .error (Thrown.errorInstance msg) => .ok ⟨[⟨"text", "Error: " ++ msg⟩], true⟩
  | .error e => .error e

/-- `OpenAPIServer.registerTool`: fails when the name is taken, otherwise
adds the definition under the name. -/
def registerTool (customTools : List (String × CustomToolDef)) (nm : String)
    (d : CustomToolBody) : Except String (List (String × CustomToolDef)) :=
  if (lookupAssoc customTools nm).isSome then
    .error ("Tool with name \x27" ++ nm ++ "\x27 already exists")
  else
    .ok (customTools ++ [(nm, ⟨nm, d.description, d.inputSchema, d.handler⟩)])

/-- Sample custom tool for the registration witness. -/
def sampleCustomTool : CustomToolDef :=
  ⟨"add", "Add two numbers", Manager.JSchema.mk "object" none [] [] [], 1⟩

/-- Sample custom-tool map holding `sampleCustomTool` under `add`. -/
def sampleCustomTools : List (String × CustomToolDef) :=
  [(("add"), sampleCustomTool)]

/-- A second definition body for the duplicate-registration witness. -/
def sampleBody : CustomToolBody :=
  ⟨"Duplicate tool", Manager.JSchema.mk "object" none [] [] [], 2⟩

end Server

namespace Prompts

/-- A prompt argument declaration; `required` is optional in the source. -/
structure PromptArg where
  name : String
  description : Option String
  required : Option Bool
deriving DecidableEq

/-- A prompt definition as stored by the prompts manager. -/
structure PromptDef where
  name : String
  description : Option String
  template : String
  arguments : Option (List PromptArg)
deriving DecidableEq

/-- Text content of a prompt message. -/
structure MessageContent where
  type : String
  text : String
deriving DecidableEq

/-- One message of a `prompts/get` result. -/
structure PromptMessage where
  role : String
  content : MessageContent
deriving DecidableEq

/-- A `prompts/get` result. -/
structure GetPromptResult where
  description : Option String
  messages : List PromptMessage
deriving DecidableEq

/-- Word character of the placeholder regex `\{\{(\w+)\}\}`. -/
def isWordChar (c : Char) : Bool :=
  c.isAlpha || c.isDigit || c = '_'

/-- Maximal word prefix and the remainder. -/
def takeWord : List Char → (List Char × List Char)
  | [] => ([], [])
  | c :: rest =>
    if isWordChar c then
      let p := takeWord rest
      (c :: p.1, p.2)
    else ([], c :: rest)

/-- After a `{{`, recognise `\w+}}`: returns the word and the remainder
after the closing braces, or nothing when the regex does not match here. -/
def placeholderSplit (l : List Char) : Option (List Char × List Char) :=
  let p := takeWord l
  if p.1.isEmpty then none
  else
    match p.2 with
    | c1 :: c2 :: r2 => if c1 = '}' && c2 = '}' then some (p.1, r2) else none
    | _ => none

/-- The replacement value for a placeholder: the supplied argument, or the
empty string when it is absent. -/
def argValue (args : List (String × String)) (w : List Char) : List Char :=
  match lookupAssoc args (String.mk w) with
  | some v => v.toList
  | none => []

/-- Fuelled worker of `renderTemplate`: a leftmost-match scan replacing
every `\{\{(\w+)\}\}` occurrence. -/
def renderF (args : List (String × String)) : Nat → List Char → List Char
  | 0, l => l
  | _ + 1, [] => []
  | _ + 1, [c] => [c]
  | fuel + 1, c1 :: c2 :: rest =>
    if c1 = '{' && c2 = '{' then
      match placeholderSplit rest with
      | some (w, r2) => argValue args w ++ renderF args fuel r2
      | none => c1 :: renderF args fuel (c2 :: rest)
    else c1 :: renderF args fuel (c2 :: rest)

/-- `PromptsManager.renderTemplate`: replace `{{name}}` placeholders by the
supplied argument values, missing arguments by the empty string. -/
def renderTemplate (template : String) (args : List (String × String)) : String :=
  String.mk (renderF args template.toList.length template.toList)

/-- `PromptsManager.getPrompt`: unknown prompt names and missing required
arguments throw; otherwise exactly one `user` text message is produced
holding the rendered template. -/
def getPrompt (prompts : List (String × PromptDef)) (nm : String)
    (args : Option (List (String × String))) : Except String GetPromptResult :=
  match lookupAssoc prompts nm with
  | none => .error ("Prompt not found: " ++ nm)
  | some d =>
    match (d.arguments.getD []).find?
        (fun a => (a.required.getD false) && (lookupAssoc (args.getD []) a.name).isNone) with
    | some a => .error ("Missing required argument: " ++ a.name)
    | none =>
      .ok ⟨d.description,
        [⟨"user", ⟨"text", renderTemplate d.template (args.getD [])⟩⟩]⟩

/-- Sample prompt with a required argument `task` and an optional
argument `mood`. -/
def demoPlan : PromptDef :=
  ⟨"plan", some "Plan a task",
   "Please do \x7b\x7btask\x7d\x7d in a \x7b\x7bmood\x7d\x7d way.",
   some [⟨"task", none, some true⟩, ⟨"mood", none, some false⟩]⟩

/-- Sample prompt store for the witnesses. -/
def demoPrompts : List (String × PromptDef) :=
  [(("plan"), demoPlan)]

end Prompts

/-! ## Theorems -/

theorem strToList_mk (l : List Char) : (String.mk l).toList = l := rfl

theorem strMk_toList (s : String) : String.mk s.toList = s := rfl

namespace ToolId

theorem takeUntilRBrace_length :
    ∀ (l i a : List Char), takeUntilRBrace l = some (i, a) →
      a.length < l.length := by
  intro l
  induction l with
  | nil => intro i a h; simp [takeUntilRBrace] at h
  | cons c rest ih =>
    intro i a h
    by_cases hc : c = '}'
    · simp [takeUntilRBrace, hc] at h
      simp [← h.2]
    · simp only [takeUntilRBrace, if_neg hc, Option.map_eq_some'] at h
      obtain ⟨p, hp, hpe⟩ := h
      have hlt := ih p.1 p.2 (by rw [hp])
      have ha : a = p.2 := by
        have := congrArg Prod.snd hpe
        simpa using this.symm
      subst ha
      simp
      omega

theorem rbF_fuel_irrel :
    ∀ (f1 f2 : Nat) (l : List Char), l.length ≤ f1 → l.length ≤ f2 →
      rbF f1 l = rbF f2 l := by
  intro f1
  induction f1 with
  | zero =>
    intro f2 l h1 h2
    have : l = [] := by cases l <;> simp_all
    subst this
    cases f2 <;> simp [rbF]
  | succ f1 ih =>
    intro f2 l h1 h2
    cases l with
    | nil => cases f2 <;> simp [rbF]
    | cons c rest =>
      cases f2 with
      | zero => simp at h2
      | succ f2 =>
        simp only [rbF]
        by_cases hc : c = '{'
        · simp only [if_pos hc]
          cases htk : takeUntilRBrace rest with
          | none =>
            simp only [List.length_cons] at h1 h2
            rw [ih f2 rest (by omega) (by omega)]
          | some p =>
            obtain ⟨i, a⟩ := p
            have hlen := takeUntilRBrace_length rest i a htk
            simp only [List.length_cons] at h1 h2
            by_cases hi : i.isEmpty
            · simp only [if_pos hi]
              rw [ih f2 rest (by omega) (by omega)]
            · simp only [if_neg hi]
              rw [ih f2 a (by omega) (by omega)]
        · simp only [if_neg hc, List.length_cons] at h1 h2 ⊢
          rw [ih f2 rest (by omega) (by omega)]

theorem alnum_plain {c : Char} (h : (c.isAlpha || c.isDigit) = true) :
    plainChar c = true := by
  simp only [plainChar, Bool.or_eq_true] at h ⊢
  tauto

theorem plain_ne_lbrace {c : Char} (h : plainChar c = true) : c ≠ '{' := by
  rintro rfl
  exact absurd h (by decide)

theorem plain_ne_underscore {c : Char} (h : plainChar c = true) : c ≠ '_' := by
  rintro rfl
  exact absurd h (by decide)

theorem alnum_ne_rbrace {c : Char} (h : (c.isAlpha || c.isDigit) = true) : c ≠ '}' := by
  rintro rfl
  exact absurd h (by decide)

theorem upper_ne_colon {c : Char} (h : isUpperAlpha c = true) : c ≠ ':' := by
  rintro rfl
  exact absurd h (by decide)

theorem plain_allowed {c : Char} (h : plainChar c = true) (hne : c ≠ '/') :
    allowedChar c = true := by
  simp only [plainChar, Bool.or_eq_true, decide_eq_true_eq] at h
  simp only [allowedChar, Bool.or_eq_true, decide_eq_true_eq]
  tauto

theorem takeUntilRBrace_exact (nm rest : List Char)
    (h : ∀ c ∈ nm, (c.isAlpha || c.isDigit) = true) :
    takeUntilRBrace (nm ++ '}' :: rest) = some (nm, rest) := by
  induction nm with
  | nil => simp [takeUntilRBrace]
  | cons c nm' ih =>
    have hc : c ≠ '}' := alnum_ne_rbrace (h c (by simp))
    have ih' := ih (fun d hd => h d (by simp [hd]))
    simp [takeUntilRBrace, hc, ih']

theorem replaceBraces_nil : replaceBraces [] = [] := rfl

theorem replaceBraces_cons_plain {c : Char} {rest : List Char} (hc : c ≠ '{') :
    replaceBraces (c :: rest) = c :: replaceBraces rest := by
  show rbF (c :: rest).length (c :: rest) = c :: rbF rest.length rest
  simp [rbF, hc]

theorem replaceBraces_param {nm rest : List Char} (hne : nm ≠ [])
    (hal : ∀ c ∈ nm, (c.isAlpha || c.isDigit) = true) :
    replaceBraces ('{' :: (nm ++ '}' :: rest)) =
      '-' :: '-' :: '-' :: (nm ++ replaceBraces rest) := by
  have htk := takeUntilRBrace_exact nm rest hal
  have hie : nm.isEmpty = false := by
    cases nm with
    | nil => exact absurd rfl hne
    | cons _ _ => rfl
  show rbF ('{' :: (nm ++ '}' :: rest)).length ('{' :: (nm ++ '}' :: rest)) = _
  rw [show ('{' :: (nm ++ '}' :: rest)).length = (nm ++ '}' :: rest).length + 1 from by simp]
  simp only [rbF, htk, hie, if_pos, if_neg, Bool.false_eq_true, ite_false, reduceIte]
  rw [rbF_fuel_irrel ((nm ++ '}' :: rest).length) rest.length rest
    (by simp only [List.length_append, List.length_cons]; omega) (le_refl _)]
  rfl

theorem replaceBraces_chars {l : List Char} (h : PathOk l) :
    ∀ c ∈ replaceBraces l, plainChar c = true := by
  induction h with
  | nil =>
    intro c hc
    rw [replaceBraces_nil] at hc
    cases hc
  | plain hp hrest ih =>
    intro d hd
    rw [replaceBraces_cons_plain (plain_ne_lbrace hp)] at hd
    rcases List.mem_cons.mp hd with rfl | hd
    · exact hp
    · exact ih d hd
  | param hne hal hrest ih =>
    intro d hd
    rw [replaceBraces_param hne hal] at hd
    simp only [List.mem_cons, List.mem_append] at hd
    rcases hd with rfl | rfl | rfl | hd | hd
    · decide
    · decide
    · decide
    · exact alnum_plain (hal d hd)
    · exact ih d hd

theorem expandSlashes_chars {l : List Char} (h : ∀ c ∈ l, plainChar c = true) :
    ∀ c ∈ expandSlashes l, allowedChar c = true := by
  induction l with
  | nil => intro c hc; simp [expandSlashes] at hc
  | cons c rest ih =>
    intro d hd
    by_cases hc : c = '/'
    · subst hc
      rw [show expandSlashes ('/' :: rest) = '_' :: '_' :: expandSlashes rest from by
        simp [expandSlashes]] at hd
      rcases List.mem_cons.mp hd with rfl | hd
      · decide
      · rcases List.mem_cons.mp hd with rfl | hd
        · decide
        · exact ih (fun e he => h e (by simp [he])) d hd
    · rw [show expandSlashes (c :: rest) = c :: expandSlashes rest from by
        simp [expandSlashes, hc]] at hd
      rcases List.mem_cons.mp hd with rfl | hd
      · exact plain_allowed (h d (by simp)) hc
      · exact ih (fun e he => h e (by simp [he])) d hd

theorem sanitize_id {l : List Char} (h : ∀ c ∈ l, allowedChar c = true) :
    sanitize l = l := by
  induction l with
  | nil => rfl
  | cons c rest ih =>
    have hc := h c (by simp)
    simp only [sanitize, List.map_cons]
    rw [if_pos hc]
    exact congrArg _ (ih (fun d hd => h d (by simp [hd])))

theorem undo_cons_ne {c : Char} (m : List Char) (hc : c ≠ '_') :
    undoUnderscores (c :: m) = c :: undoUnderscores m := by
  cases m with
  | nil => rfl
  | cons c2 rest => simp [undoUnderscores, hc]

theorem undo_expand {l : List Char} (h : ∀ c ∈ l, c ≠ '_') :
    undoUnderscores (expandSlashes l) = l := by
  induction l with
  | nil => rfl
  | cons c rest ih =>
    by_cases hc : c = '/'
    · subst hc
      rw [show expandSlashes ('/' :: rest) = '_' :: '_' :: expandSlashes rest from by
        simp [expandSlashes]]
      rw [show undoUnderscores ('_' :: '_' :: expandSlashes rest) =
          '/' :: undoUnderscores (expandSlashes rest) from by simp [undoUnderscores]]
      rw [ih (fun d hd => h d (by simp [hd]))]
    · rw [show expandSlashes (c :: rest) = c :: expandSlashes rest from by
        simp [expandSlashes, hc]]
      rw [undo_cons_ne _ (h c (by simp))]
      rw [ih (fun d hd => h d (by simp [hd]))]

theorem split_append (M e : List Char) (h : ∀ c ∈ M, c ≠ ':') :
    splitOnDoubleColon (M ++ ':' :: ':' :: e) = some (M, e) := by
  induction M with
  | nil => simp [splitOnDoubleColon]
  | cons c M' ih =>
    have hc : c ≠ ':' := h c (by simp)
    have ih' := ih (fun d hd => h d (by simp [hd]))
    cases M' with
    | nil => simp [splitOnDoubleColon, hc, ih']
    | cons c2 M'' =>
      simp only [List.cons_append] at ih'
      simp [splitOnDoubleColon, hc, ih']

theorem toUpper_fixed {c : Char} (h : isUpperAlpha c = true) : c.toUpper = c := by
  simp only [isUpperAlpha, Bool.and_eq_true, decide_eq_true_eq] at h
  have hcond : ¬(c.toNat ≥ 97 ∧ c.toNat ≤ 122) := by omega
  simp [Char.toUpper, hcond]

theorem toUpperList_fixed {M : List Char} (h : ∀ c ∈ M, isUpperAlpha c = true) :
    toUpperList M = M := by
  induction M with
  | nil => rfl
  | cons c rest ih =>
    simp only [toUpperList, List.map_cons]
    rw [toUpper_fixed (h c (by simp))]
    exact congrArg _ (ih (fun d hd => h d (by simp [hd])))

theorem pathOk_append_plain {l rest : List Char}
    (h : ∀ c ∈ l, plainChar c = true) (hr : PathOk rest) : PathOk (l ++ rest) := by
  induction l with
  | nil => exact hr
  | cons c l' ih =>
    exact PathOk.plain (h c (by simp)) (ih (fun d hd => h d (by simp [hd])))

end ToolId

namespace ToolId

/-- C1 (amended): for an uppercase non-empty method and a well-formed path
(leading `/`, plain characters and `{name}` parameter groups, no `::`),
decoding the generated tool id restores the method exactly and the path
with every `/` and the leading slash restored, but with each `{name}`
parameter marker kept in its encoded `---name` form rather than restored
to `{name}`. -/
theorem toolId_roundtrip_amended (M p : String) (q : List Char)
    (hp : p.toList = '/' :: q)
    (hM : ∀ c ∈ M.toList, isUpperAlpha c = true)
    (hMne : M ≠ "")
    (hok : PathOk q)
    (hdc : hasDoubleColon p.toList = false) :
    generateToolId M p =
      Except.ok (String.mk (M.toList ++ ':' :: ':' :: expandSlashes (replaceBraces q))) ∧
    parseToolId (String.mk (M.toList ++ ':' :: ':' :: expandSlashes (replaceBraces q))) =
      some (M, String.mk ('/' :: replaceBraces q)) := by
  have hmE : M.isEmpty = false := by
    cases hE : M.isEmpty with
    | false => rfl
    | true => exact absurd ((String.isEmpty_iff M).mp hE) hMne
  have hstrip : stripLeadingSlash p.toList = q := by
    rw [hp]
    simp [stripLeadingSlash]
  have hplain : ∀ c ∈ replaceBraces q, plainChar c = true := replaceBraces_chars hok
  have hsan : sanitize (expandSlashes (replaceBraces q)) = expandSlashes (replaceBraces q) :=
    sanitize_id (expandSlashes_chars hplain)
  have hdc2 : hasDoubleColon p.data = false := hdc
  have hstrip2 : stripLeadingSlash p.data = q := hstrip
  have hup2 : toUpperList M.data = M.data := toUpperList_fixed hM
  constructor
  · simp [generateToolId, hdc2, hmE, hstrip2, hup2, hsan]
  · rw [parseToolId, strToList_mk]
    rw [split_append M.toList _ (fun c hc => upper_ne_colon (hM c hc))]
    simp only [Option.map_some']
    rw [undo_expand (fun c hc => plain_ne_underscore (hplain c hc))]
    rw [strMk_toList]

/-- C1 counterexample: for method `POST` and path
`/api/widgets/{widgetId}:activate` (which contains no `::`), decoding the
generated tool id does not give back the original path — the `{widgetId}`
marker comes back as `---widgetId`. -/
theorem toolId_roundtrip_counterexample :
    (generateToolId ("POST") ("/api/widgets/\x7bwidgetId\x7d:activate")).toOption.bind
      parseToolId =
      some (("POST"), ("/api/widgets/---widgetId:activate")) ∧
    (generateToolId ("POST") ("/api/widgets/\x7bwidgetId\x7d:activate")).toOption.bind
      parseToolId ≠
      some (("POST"), ("/api/widgets/\x7bwidgetId\x7d:activate")) := by
  constructor
  · rfl
  · decide

/-- C1 witness: the amended round-trip law applied to `POST` and
`/api/widgets/{widgetId}:activate`. -/
theorem toolId_roundtrip_witness :
    generateToolId ("POST") ("/api/widgets/\x7bwidgetId\x7d:activate") =
      Except.ok (String.mk (("POST").toList ++ ':' :: ':' ::
        expandSlashes (replaceBraces (("api/widgets/\x7bwidgetId\x7d:activate").toList)))) ∧
    parseToolId (String.mk (("POST").toList ++ ':' :: ':' ::
        expandSlashes (replaceBraces (("api/widgets/\x7bwidgetId\x7d:activate").toList)))) =
      some (("POST"),
        String.mk ('/' :: replaceBraces (("api/widgets/\x7bwidgetId\x7d:activate").toList))) := by
  have hok : PathOk (("api/widgets/\x7bwidgetId\x7d:activate").toList) := by
    have h2 : PathOk ('{' :: ((("widgetId").toList) ++ '}' :: ((":activate").toList))) :=
      PathOk.param (by decide) (by decide)
        (pathOk_append_plain (l := (":activate").toList) (by decide) PathOk.nil)
    have heq : (("api/widgets/").toList) ++
        ('{' :: ((("widgetId").toList) ++ '}' :: ((":activate").toList))) =
        (("api/widgets/\x7bwidgetId\x7d:activate").toList) := by decide
    exact heq ▸ pathOk_append_plain (by decide) h2
  exact toolId_roundtrip_amended ("POST") ("/api/widgets/\x7bwidgetId\x7d:activate")
    (("api/widgets/\x7bwidgetId\x7d:activate").toList)
    (by decide) (by decide) (by decide) hok (by decide)

end ToolId

namespace Interp

/-- C7: binding the path parameter `widgetId` with value `12345` in the
resolved path `(slash)api(slash)widgets(slash)---widgetId:activate` — via
the executor's replacement regex with URL-encoding of the value — preserves
the Google-RPC colon suffix: the bound path ends in `12345:activate` and
not in `12345activate`. -/
theorem interp_rpc_colon_theorem :
    replacePathParam ("/api/widgets/---widgetId:activate") ("widgetId") ("12345") =
      ("/api/widgets/12345:activate") ∧
    replacePathParam ("/api/widgets/---widgetId:activate") ("widgetId") ("12345") ≠
      ("/api/widgets/12345activate") := by
  constructor
  · rfl
  · decide

end Interp

namespace Abbrev

theorem char_toNat_ofNat (n : Nat) (h : n.isValidChar) : (Char.ofNat n).toNat = n := by
  simp [Char.ofNat, h]
  rfl

theorem isUpper_toNat {c : Char} (h : c.isUpper = true) : 65 ≤ c.toNat ∧ c.toNat ≤ 90 := by
  simp only [Char.isUpper, Bool.and_eq_true, decide_eq_true_eq] at h
  exact ⟨h.1, h.2⟩

theorem isLower_of_toNat {c : Char} (h1 : 97 ≤ c.toNat) (h2 : c.toNat ≤ 122) :
    c.isLower = true := by
  simp only [Char.isLower, Bool.and_eq_true, decide_eq_true_eq]
  exact ⟨h1, h2⟩

theorem lowerAlnum_ne_hyphen {c : Char} (h : isLowerAlnum c = true) : c ≠ '-' := by
  rintro rfl
  exact absurd h (by decide)

theorem toLower_lowerAlnum {c : Char} (h : isAlnum c = true) :
    isLowerAlnum (Char.toLower c) = true := by
  simp only [isAlnum, Char.isAlpha, Bool.or_eq_true] at h
  by_cases hcond : c.toNat ≥ 65 ∧ c.toNat ≤ 90
  · have hlow : Char.toLower c = Char.ofNat (c.toNat + 32) := by
      simp [Char.toLower, hcond]
    have hv : (c.toNat + 32).isValidChar := Or.inl (by omega)
    have ht := char_toNat_ofNat (c.toNat + 32) hv
    rw [hlow]
    simp only [isLowerAlnum, Bool.or_eq_true]
    exact Or.inl (isLower_of_toNat (by omega) (by omega))
  · have hlow : Char.toLower c = c := by
      simp [Char.toLower, hcond]
    rw [hlow]
    rcases h with (hu | hl) | hd
    · exact absurd ⟨(isUpper_toNat hu).1, (isUpper_toNat hu).2⟩ hcond
    · simp [isLowerAlnum, hl]
    · simp [isLowerAlnum, hd]

theorem runsAux_good :
    ∀ (l cur : List Char), (∀ c ∈ cur, isAlnum c = true) →
      ∀ t ∈ runsAux cur l, t ≠ [] ∧ ∀ c ∈ t, isAlnum c = true := by
  intro l
  induction l with
  | nil =>
    intro cur hcur t ht
    by_cases hc : cur.isEmpty
    · simp [runsAux, hc] at ht
    · simp only [runsAux, hc, Bool.false_eq_true, if_false, List.mem_singleton] at ht
      subst ht
      constructor
      · simp only [ne_eq, List.reverse_eq_nil_iff]
        intro hnil
        rw [hnil] at hc
        exact hc rfl
      · intro c hc2
        exact hcur c (List.mem_reverse.mp hc2)
  | cons c rest ih =>
    intro cur hcur t ht
    by_cases ha : isAlnum c = true
    · rw [show runsAux cur (c :: rest) = runsAux (c :: cur) rest from by
        simp [runsAux, ha]] at ht
      refine ih (c :: cur) ?_ t ht
      intro d hd
      rcases List.mem_cons.mp hd with rfl | hd
      · exact ha
      · exact hcur d hd
    · by_cases hc : cur.isEmpty
      · rw [show runsAux cur (c :: rest) = runsAux [] rest from by
          simp [runsAux, ha, hc]] at ht
        exact ih [] (by simp) t ht
      · rw [show runsAux cur (c :: rest) = cur.reverse :: runsAux [] rest from by
          simp [runsAux, ha, hc]] at ht
        rcases List.mem_cons.mp ht with rfl | ht
        · constructor
          · simp only [ne_eq, List.reverse_eq_nil_iff]
            intro hnil
            rw [hnil] at hc
            exact hc rfl
          · intro d hd
            exact hcur d (List.mem_reverse.mp hd)
        · exact ih [] (by simp) t ht

theorem splitRunAux_good :
    ∀ (l cur : List Char), cur ≠ [] → (∀ c ∈ cur, isAlnum c = true) →
      (∀ c ∈ l, isAlnum c = true) →
      ∀ t ∈ splitRunAux cur l, t ≠ [] ∧ ∀ c ∈ t, isAlnum c = true := by
  intro l
  induction l with
  | nil =>
    intro cur hne hcur hl t ht
    simp only [splitRunAux, List.mem_singleton] at ht
    subst ht
    refine ⟨by simpa using hne, ?_⟩
    intro c hc
    exact hcur c (List.mem_reverse.mp hc)
  | cons c rest ih =>
    intro cur hne hcur hl t ht
    have hc : isAlnum c = true := hl c (by simp)
    have hrest : ∀ d ∈ rest, isAlnum d = true := fun d hd => hl d (by simp [hd])
    cases cur with
    | nil => exact absurd rfl hne
    | cons p cur' =>
      by_cases hb : boundary p c = true
      · rw [show splitRunAux (p :: cur') (c :: rest) =
            (p :: cur').reverse :: splitRunAux [c] rest from by simp [splitRunAux, hb]] at ht
        rcases List.mem_cons.mp ht with rfl | ht
        · refine ⟨by simp, ?_⟩
          intro d hd
          exact hcur d (List.mem_reverse.mp hd)
        · refine ih [c] (by simp) ?_ hrest t ht
          intro d hd
          rw [List.mem_singleton.mp hd]
          exact hc
      · rw [show splitRunAux (p :: cur') (c :: rest) =
            splitRunAux (c :: p :: cur') rest from by simp [splitRunAux, hb]] at ht
        refine ih (c :: p :: cur') (by simp) ?_ hrest t ht
        intro d hd
        rcases List.mem_cons.mp hd with rfl | hd
        · exact hc
        · exact hcur d hd

end Abbrev

namespace Abbrev

theorem tokenize_good (l : List Char) : ∀ t ∈ tokenize l, GoodTok t := by
  intro t ht
  simp only [tokenize, List.mem_map] at ht
  obtain ⟨t0, ht0, rfl⟩ := ht
  simp only [List.mem_flatMap] at ht0
  obtain ⟨r, hr, ht0⟩ := ht0
  have hrgood := runsAux_good l [] (by simp) r hr
  have ht0good : t0 ≠ [] ∧ ∀ c ∈ t0, isAlnum c = true := by
    cases r with
    | nil => exact absurd rfl hrgood.1
    | cons c rest =>
      have hc : isAlnum c = true := hrgood.2 c (by simp)
      have hrest : ∀ d ∈ rest, isAlnum d = true := fun d hd => hrgood.2 d (by simp [hd])
      exact splitRunAux_good rest [c] (by simp)
        (fun d hd => by rw [List.mem_singleton.mp hd]; exact hc) hrest t0
        (by simpa [splitRun] using ht0)
  constructor
  · simpa using ht0good.1
  · intro c hc
    simp only [List.mem_map] at hc
    obtain ⟨d, hd, rfl⟩ := hc
    exact toLower_lowerAlnum (ht0good.2 d hd)

theorem abbreviateToken_good {t : List Char} (h : GoodTok t) : GoodTok (abbreviateToken t) := by
  unfold abbreviateToken
  cases hf : abbrevDict.find? (fun p => p.1 = String.mk t) with
  | none => exact h
  | some p =>
    have hp := List.mem_of_find?_eq_some hf
    have hall : ∀ q ∈ abbrevDict, q.2.toList ≠ [] ∧ ∀ c ∈ q.2.toList, isLowerAlnum c = true := by
      decide
    exact hall p hp

theorem dropInteriorVowels_good {t : List Char} (h : GoodTok t) :
    GoodTok (dropInteriorVowels t) := by
  unfold dropInteriorVowels
  by_cases hlen : 4 < t.length
  · rw [if_pos hlen]
    cases t with
    | nil => exact h
    | cons c rest =>
      constructor
      · simp
      · intro d hd
        rcases List.mem_cons.mp hd with rfl | hd
        · exact h.2 d (by simp)
        · exact h.2 d (by simp [List.mem_of_mem_filter hd])
  · rw [if_neg hlen]
    exact h

theorem pipelineTokens_good (opId : String) (maxLen : Nat) :
    ∀ t ∈ pipelineTokens opId maxLen, GoodTok t := by
  intro t ht
  simp only [pipelineTokens] at ht
  by_cases hcond : maxLen < (joinTokens (((tokenize opId.toList).filter
      (fun t => !(commonWords.contains (String.mk t)))).map abbreviateToken)).length
  · rw [if_pos hcond] at ht
    simp only [List.mem_map] at ht
    obtain ⟨t1, ⟨t2, ht2, rfl⟩, rfl⟩ := ht
    exact dropInteriorVowels_good (abbreviateToken_good
      (tokenize_good _ t2 (List.mem_of_mem_filter ht2)))
  · rw [if_neg hcond] at ht
    simp only [List.mem_map] at ht
    obtain ⟨t2, ht2, rfl⟩ := ht
    exact abbreviateToken_good (tokenize_good _ t2 (List.mem_of_mem_filter ht2))

theorem hasDoubleHyphen_cons₂ (a b : Char) (r : List Char) :
    hasDoubleHyphen (a :: b :: r) = ((a = '-' && b = '-') || hasDoubleHyphen (b :: r)) := by
  simp [hasDoubleHyphen]

theorem noHyphen_noDouble {l : List Char} (h : ∀ c ∈ l, c ≠ '-') :
    hasDoubleHyphen l = false := by
  induction l with
  | nil => rfl
  | cons c rest ih =>
    cases rest with
    | nil => rfl
    | cons c2 rest' =>
      have hc : c ≠ '-' := h c (by simp)
      have hr := ih (fun d hd => h d (by simp [hd]))
      simp [hasDoubleHyphen_cons₂, hc, hr]

theorem hdh_append {t m : List Char} (ht : hasDoubleHyphen t = false)
    (hlast : t.getLast? ≠ some '-') (hm : hasDoubleHyphen m = false)
    (hhead : m.head? ≠ some '-') : hasDoubleHyphen (t ++ '-' :: m) = false := by
  induction t with
  | nil =>
    cases m with
    | nil => rfl
    | cons d m' =>
      have hd : d ≠ '-' := by
        intro hdd
        exact hhead (by simp [hdd])
      simp only [List.nil_append]
      simp [hasDoubleHyphen_cons₂, hd, hm]
  | cons c t' ih =>
    cases t' with
    | nil =>
      have hc : c ≠ '-' := by
        intro hcc
        exact hlast (by simp [hcc])
      have hrest : hasDoubleHyphen ([] ++ '-' :: m) = false := by
        cases m with
        | nil => rfl
        | cons d m' =>
          have hd : d ≠ '-' := by
            intro hdd
            exact hhead (by simp [hdd])
          simp only [List.nil_append]
          simp [hasDoubleHyphen_cons₂, hd, hm]
      simp only [List.nil_append] at hrest
      simp only [List.cons_append, List.nil_append]
      simp [hasDoubleHyphen_cons₂, hc, hrest]
    | cons c2 t'' =>
      rw [hasDoubleHyphen_cons₂] at ht
      have hpair : (c = '-' && c2 = '-') = false ∧ hasDoubleHyphen (c2 :: t'') = false := by
        rcases Bool.or_eq_false_iff.mp ht with ⟨h1, h2⟩
        exact ⟨h1, h2⟩
      have hlast2 : (c2 :: t'').getLast? ≠ some '-' := by
        rw [← List.getLast?_cons_cons]
        exact hlast
      have := ih hpair.2 hlast2
      simp only [List.cons_append] at this ⊢
      rw [hasDoubleHyphen_cons₂]
      simp [hpair.1, this]

end Abbrev

namespace Abbrev

theorem alnum_head_ne_hyphen {m : List Char} (hne : m ≠ [])
    (h : ∀ c ∈ m, isLowerAlnum c = true) : m.head? ≠ some '-' := by
  cases m with
  | nil => exact absurd rfl hne
  | cons c m' =>
    intro hh
    have : c = '-' := by simpa using hh
    exact lowerAlnum_ne_hyphen (h c (by simp)) this

theorem alnum_getLast_ne_hyphen {m : List Char}
    (h : ∀ c ∈ m, isLowerAlnum c = true) : m.getLast? ≠ some '-' := by
  intro hh
  have hmem := List.mem_of_mem_getLast? hh
  exact lowerAlnum_ne_hyphen (h _ hmem) rfl

theorem goodTok_nice {t : List Char} (h : GoodTok t) : NiceList t := by
  obtain ⟨hne, hchars⟩ := h
  refine ⟨hne, ?_, ?_, ?_, ?_⟩
  · intro c hc
    simp [hchars c hc]
  · exact alnum_head_ne_hyphen hne hchars
  · exact alnum_getLast_ne_hyphen hchars
  · exact noHyphen_noDouble (fun c hc => lowerAlnum_ne_hyphen (hchars c hc))

theorem joinTokens_ne_nil_of_good {t : List Char} {ts : List (List Char)}
    (h : GoodTok t) : joinTokens (t :: ts) ≠ [] := by
  cases ts with
  | nil => exact h.1
  | cons t2 ts' =>
    show t ++ '-' :: joinTokens (t2 :: ts') ≠ []
    simp [h.1]

theorem joinTokens_nice :
    ∀ (ts : List (List Char)), ts ≠ [] → (∀ t ∈ ts, GoodTok t) →
      NiceList (joinTokens ts) := by
  intro ts
  induction ts with
  | nil => intro h; exact absurd rfl h
  | cons t ts' ih =>
    intro _ hall
    have hgt : GoodTok t := hall t (by simp)
    cases ts' with
    | nil => exact goodTok_nice hgt
    | cons t2 ts'' =>
      have hni : NiceList (joinTokens (t2 :: ts'')) :=
        ih (by simp) (fun u hu => hall u (by simp [hu]))
      have hjne : joinTokens (t2 :: ts'') ≠ [] := hni.1
      show NiceList (t ++ '-' :: joinTokens (t2 :: ts''))
      refine ⟨by simp [hgt.1], ?_, ?_, ?_, ?_⟩
      · intro c hc
        rcases List.mem_append.mp hc with hc | hc
        · simp [hgt.2 c hc]
        · rcases List.mem_cons.mp hc with rfl | hc
          · simp
          · exact hni.2.1 c hc
      · cases ht : t with
        | nil => exact absurd ht hgt.1
        | cons c t' =>
          have : c ∈ t := by simp [ht]
          simp only [List.cons_append, List.head?_cons]
          intro hh
          have hcc : c = '-' := by simpa using hh
          exact lowerAlnum_ne_hyphen (hgt.2 c this) hcc
      · rw [List.getLast?_append]
        cases hj : joinTokens (t2 :: ts'') with
        | nil => exact absurd hj hjne
        | cons d j' =>
          have hlast := hni.2.2.2.1
          rw [hj] at hlast
          rw [List.getLast?_cons_cons]
          cases hgl : (d :: j').getLast? with
          | none => simp at hgl
          | some x =>
            rw [hgl] at hlast
            intro hh
            exact hlast hh
      · exact hdh_append
          (noHyphen_noDouble (fun c hc => lowerAlnum_ne_hyphen (hgt.2 c hc)))
          (alnum_getLast_ne_hyphen hgt.2)
          hni.2.2.2.2
          hni.2.2.1

end Abbrev

namespace Abbrev

theorem strip_isPrefix (l : List Char) : stripTrailingHyphens l <+: l := by
  have h := List.dropWhile_suffix (l := l.reverse) (fun c => c = '-')
  have h2 := List.reverse_prefix.mpr h
  simpa [stripTrailingHyphens] using h2

theorem strip_ne_nil {l : List Char} {c : Char} (hh : l.head? = some c) (hc : c ≠ '-') :
    stripTrailingHyphens l ≠ [] := by
  intro hnil
  have hrev : l.reverse.dropWhile (fun c => c = '-') = [] := by
    have := congrArg List.reverse hnil
    simpa [stripTrailingHyphens] using this
  rw [List.dropWhile_eq_nil_iff] at hrev
  have hcl : c ∈ l := by
    cases l with
    | nil => simp at hh
    | cons a l' =>
      have : a = c := by simpa using hh
      simp [this]
  have := hrev c (List.mem_reverse.mpr hcl)
  exact hc (by simpa using this)

theorem isPrefix_head {l₁ l₂ : List Char} (h : l₁ <+: l₂) (hne : l₁ ≠ []) :
    l₂.head? = l₁.head? := by
  obtain ⟨t, rfl⟩ := h
  cases l₁ with
  | nil => exact absurd rfl hne
  | cons a l' => simp

theorem strip_getLast (l : List Char) :
    (stripTrailingHyphens l).getLast? ≠ some '-' := by
  have haux : ∀ (m : List Char), (m.dropWhile (fun c => c = '-')).head? ≠ some '-' := by
    intro m
    induction m with
    | nil => simp
    | cons c m' ih =>
      by_cases hc : c = '-'
      · simpa [List.dropWhile, hc] using ih
      · simp [List.dropWhile, hc]
  rw [show stripTrailingHyphens l = (l.reverse.dropWhile (fun c => c = '-')).reverse from rfl]
  rw [List.getLast?_reverse]
  exact haux l.reverse

theorem hdh_of_append {l t : List Char} (h : hasDoubleHyphen (l ++ t) = false) :
    hasDoubleHyphen l = false := by
  induction l with
  | nil => rfl
  | cons c l' ih =>
    cases l' with
    | nil => rfl
    | cons c2 l'' =>
      simp only [List.cons_append] at h
      rw [hasDoubleHyphen_cons₂] at h
      rcases Bool.or_eq_false_iff.mp h with ⟨h1, h2⟩
      rw [hasDoubleHyphen_cons₂]
      have h3 := ih (by simpa using h2)
      simp [h1, h3]

theorem hdh_isPrefix {l₁ l₂ : List Char} (h : l₁ <+: l₂)
    (h2 : hasDoubleHyphen l₂ = false) : hasDoubleHyphen l₁ = false := by
  obtain ⟨t, rfl⟩ := h
  exact hdh_of_append h2

theorem getD_hexLower_lowerAlnum (k : Nat) :
    isLowerAlnum (hexLower.getD k ('0')) = true := by
  by_cases hk : k < hexLower.length
  · rw [List.getD_eq_getElem _ _ hk]
    have hmem := List.getElem_mem hk
    have hall : ∀ c ∈ hexLower, isLowerAlnum c = true := by decide
    exact hall _ hmem
  · rw [List.getD_eq_default _ _ (by omega)]
    decide

theorem hexOfNat_chars (n len : Nat) : ∀ c ∈ hexOfNat n len, isLowerAlnum c = true := by
  intro c hc
  simp only [hexOfNat, List.mem_map] at hc
  obtain ⟨i, _, rfl⟩ := hc
  exact getD_hexLower_lowerAlnum _

theorem hexOfNat_length (n len : Nat) : (hexOfNat n len).length = len := by
  simp [hexOfNat]

theorem hashHex_chars (s : String) (len : Nat) :
    ∀ c ∈ hashHex s len, isLowerAlnum c = true := by
  intro c hc
  exact hexOfNat_chars _ _ c hc

theorem hashHex_length (s : String) (len : Nat) : (hashHex s len).length = len := by
  simp [hashHex, hexOfNat_length]

theorem hashHex_ne_nil (s : String) {len : Nat} (h : 0 < len) : hashHex s len ≠ [] := by
  intro hnil
  have := hashHex_length s len
  rw [hnil] at this
  simp at this
  omega

end Abbrev

namespace Abbrev

theorem nice_glue {t m : List Char} (htd : hasDoubleHyphen t = false)
    (htl : t.getLast? ≠ some '-') (hth : t.head? ≠ some '-') (htne : t ≠ [])
    (htchars : ∀ c ∈ t, (isLowerAlnum c || c = '-') = true)
    (hmne : m ≠ []) (hmchars : ∀ c ∈ m, isLowerAlnum c = true) :
    NiceList (t ++ '-' :: m) := by
  refine ⟨by simp [htne], ?_, ?_, ?_, ?_⟩
  · intro c hc
    rcases List.mem_append.mp hc with hc | hc
    · exact htchars c hc
    · rcases List.mem_cons.mp hc with rfl | hc
      · simp
      · simp [hmchars c hc]
  · rw [isPrefix_head ⟨'-' :: m, rfl⟩ htne]
    exact hth
  · rw [List.getLast?_append]
    cases m with
    | nil => exact absurd rfl hmne
    | cons d m' =>
      rw [List.getLast?_cons_cons]
      cases hgl : (d :: m').getLast? with
      | none => simp at hgl
      | some x =>
        have hx := alnum_getLast_ne_hyphen hmchars
        rw [hgl] at hx
        intro hh
        exact hx hh
  · exact hdh_append htd htl
      (noHyphen_noDouble (fun c hc => lowerAlnum_ne_hyphen (hmchars c hc)))
      (alnum_head_ne_hyphen hmne hmchars)

theorem isValidBase_nice {l : List Char} (h : isValidBase l = true) : NiceList l := by
  unfold isValidBase at h
  rw [Bool.and_eq_true] at h
  obtain ⟨h4, hdh⟩ := h
  rw [Bool.and_eq_true] at h4
  obtain ⟨h3, hlast⟩ := h4
  rw [Bool.and_eq_true] at h3
  obtain ⟨h2, hhead⟩ := h3
  rw [Bool.and_eq_true] at h2
  obtain ⟨hne, hall⟩ := h2
  refine ⟨?_, ?_, ?_, ?_, ?_⟩
  · rw [Bool.not_eq_true'] at hne
    exact List.isEmpty_eq_false.mp hne
  · exact List.all_eq_true.mp hall
  · rw [Bool.not_eq_true'] at hhead
    cases hh : l.head? with
    | none => simp
    | some c =>
      rw [hh] at hhead
      intro hcontra
      have : c = '-' := by simpa using hcontra
      subst this
      simp at hhead
  · rw [Bool.not_eq_true'] at hlast
    cases hh : l.getLast? with
    | none => simp
    | some c =>
      rw [hh] at hlast
      intro hcontra
      have : c = '-' := by simpa using hcontra
      subst this
      simp at hlast
  · rw [Bool.not_eq_true'] at hdh
    exact hdh

theorem abbrev_nice (s : String) :
    NiceList (abbreviateOperationId s 64).toList ∧
    (abbreviateOperationId s 64).toList.length ≤ 64 := by
  have hJgood := pipelineTokens_good s 64
  simp only [abbreviateOperationId]
  split
  · exact ⟨⟨by decide, by decide, by decide, by decide, by decide⟩, by decide⟩
  · split
    · next h1 =>
      rw [Bool.and_eq_true] at h1
      obtain ⟨hvb, hlen⟩ := h1
      exact ⟨isValidBase_nice hvb, by simpa using hlen⟩
    · split
      · -- no usable tokens: tool-hash
        rw [strToList_mk]
        constructor
        · have : ("tool-").toList ++ hashHex s 8 =
              ("tool").toList ++ '-' :: hashHex s 8 := rfl
          rw [this]
          exact nice_glue (by decide) (by decide) (by decide) (by decide) (by decide)
            (hashHex_ne_nil s (by omega)) (hashHex_chars s 8)
        · have h8 := hashHex_length s 8
          simp [h8]
      · split
        · next hbase hcond =>
          -- truncate and hash
          rw [strToList_mk]
          rw [show (64 : Nat) - 5 = 59 from rfl]
          have hJne : joinTokens (pipelineTokens s 64) ≠ [] := by
            rw [← List.isEmpty_eq_false]
            simpa using hbase
          have hts : pipelineTokens s 64 ≠ [] := by
            intro hnil
            apply hJne
            rw [hnil]
            rfl
          have hJ : NiceList (joinTokens (pipelineTokens s 64)) :=
            joinTokens_nice _ hts hJgood
          have htake : (joinTokens (pipelineTokens s 64)).take 59 <+:
              joinTokens (pipelineTokens s 64) := List.take_prefix _ _
          have htakene : (joinTokens (pipelineTokens s 64)).take 59 ≠ [] := by
            cases hJc : joinTokens (pipelineTokens s 64) with
            | nil => exact absurd hJc hJne
            | cons a j' => simp [hJc]
          have hheadtake : ((joinTokens (pipelineTokens s 64)).take 59).head? ≠ some '-' := by
            rw [← isPrefix_head htake htakene]
            exact hJ.2.2.1
          have hstrippre := strip_isPrefix ((joinTokens (pipelineTokens s 64)).take 59)
          have hstripne : stripTrailingHyphens ((joinTokens (pipelineTokens s 64)).take 59) ≠ [] := by
            cases hht : ((joinTokens (pipelineTokens s 64)).take 59).head? with
            | none =>
              cases hc2 : (joinTokens (pipelineTokens s 64)).take 59 with
              | nil => exact absurd hc2 htakene
              | cons a j' => rw [hc2] at hht; simp at hht
            | some c =>
              refine strip_ne_nil hht ?_
              intro hcc
              subst hcc
              exact hheadtake hht
          have hprefJ := hstrippre.trans htake
          constructor
          · refine nice_glue ?_ ?_ ?_ hstripne ?_
              (hashHex_ne_nil s (by omega)) (hashHex_chars s 4)
            · exact hdh_isPrefix hprefJ hJ.2.2.2.2
            · exact strip_getLast _
            · rw [isPrefix_head hstrippre hstripne] at hheadtake
              exact hheadtake
            · intro c hc
              exact hJ.2.1 c (hprefJ.sublist.mem hc)
          · have hlenstrip := hstrippre.length_le
            have hlentake := List.length_take 59 (joinTokens (pipelineTokens s 64))
            have h4 := hashHex_length s 4
            simp only [List.length_append, List.length_cons, h4]
            have : ((joinTokens (pipelineTokens s 64)).take 59).length ≤ 59 := by
              rw [hlentake]
              omega
            omega
        · next hbase hcond =>
          -- the joined base itself
          rw [strToList_mk]
          have hJne : joinTokens (pipelineTokens s 64) ≠ [] := by
            rw [← List.isEmpty_eq_false]
            simpa using hbase
          have hts : pipelineTokens s 64 ≠ [] := by
            intro hnil
            apply hJne
            rw [hnil]
            rfl
          have hJ : NiceList (joinTokens (pipelineTokens s 64)) :=
            joinTokens_nice _ hts hJgood
          refine ⟨hJ, ?_⟩
          have : ¬(64 < s.length ∨ 64 < (joinTokens (pipelineTokens s 64)).length) := by
            simpa using hcond
          omega

end Abbrev

namespace Abbrev

/-- C8: for every operationId input (including empty and all-punctuation
strings) with display-name limit 64, the synthesised tool name is
non-empty, matches the character class of `^[a-z0-9_-]+$` (in fact it never
even contains `_`), has length at most 64, has no leading or trailing
hyphen, and no run of consecutive hyphens. -/
theorem abbrev_name_valid (s : String) :
    abbreviateOperationId s 64 ≠ "" ∧
    (∀ c ∈ (abbreviateOperationId s 64).toList,
      (c.isLower || c.isDigit || c = '_' || c = '-') = true) ∧
    (abbreviateOperationId s 64).length ≤ 64 ∧
    (abbreviateOperationId s 64).toList.head? ≠ some '-' ∧
    (abbreviateOperationId s 64).toList.getLast? ≠ some '-' ∧
    hasDoubleHyphen (abbreviateOperationId s 64).toList = false := by
  obtain ⟨⟨hne, hchars, hh, hl, hd⟩, hlen⟩ := abbrev_nice s
  refine ⟨?_, ?_, hlen, hh, hl, hd⟩
  · intro hcontra
    apply hne
    rw [hcontra]
    rfl
  · intro c hc
    have := hchars c hc
    simp only [isLowerAlnum, Bool.or_eq_true] at this ⊢
    tauto

end Abbrev

namespace Manager

theorem mem_lowerList_iff {l : List String} {x : String} :
    (lowerList l).contains x = true ↔ ∃ s ∈ l, strLower s = x := by
  rw [show ((lowerList l).contains x = true ↔ x ∈ lowerList l) from List.elem_iff]
  simp [lowerList, List.mem_map]

theorem lowerList_isEmpty {l : List String} : (lowerList l).isEmpty = l.isEmpty := by
  cases l <;> rfl

theorem allModeKeep_iff (cfg : Config) (tid : String) (t : ExtendedTool) :
    allModeKeep cfg tid t = true ↔
      (if cfg.includeTools.getD [] ≠ [] then
        ∃ s ∈ cfg.includeTools.getD [], strLower s = strLower tid ∨ strLower s = strLower t.name
      else
        (cfg.includeOperations.getD [] = [] ∨
          ∃ m, t.httpMethod = some m ∧
            ∃ s ∈ cfg.includeOperations.getD [], strLower s = strLower m) ∧
        (cfg.includeResources.getD [] = [] ∨
          ∃ r, t.resourceName = some r ∧
            ∃ s ∈ cfg.includeResources.getD [], strLower s = strLower r) ∧
        (cfg.includeTags.getD [] = [] ∨
          ∃ tg ∈ t.tags.getD [], ∃ s ∈ cfg.includeTags.getD [], strLower s = strLower tg)) := by
  unfold allModeKeep
  by_cases hT : cfg.includeTools.getD [] = []
  · rw [if_neg (show ¬((!(lowerList (cfg.includeTools.getD [])).isEmpty) = true) from by
      rw [hT]; decide)]
    rw [if_neg (show ¬(cfg.includeTools.getD [] ≠ []) from by simp [hT])]
    rw [Bool.and_eq_true, Bool.and_eq_true]
    constructor
    · rintro ⟨⟨hO, hR⟩, hG⟩
      rw [Bool.or_eq_true] at hO hR hG
      refine ⟨?_, ?_, ?_⟩
      · rcases hO with h | h
        · left
          have := lowerList_isEmpty (l := cfg.includeOperations.getD [])
          rw [h] at this
          exact List.isEmpty_iff.mp this.symm
        · right
          cases hm : t.httpMethod with
          | none => rw [hm] at h; simp at h
          | some m =>
            rw [hm] at h
            exact ⟨m, rfl, mem_lowerList_iff.mp h⟩
      · rcases hR with h | h
        · left
          have := lowerList_isEmpty (l := cfg.includeResources.getD [])
          rw [h] at this
          exact List.isEmpty_iff.mp this.symm
        · right
          cases hr : t.resourceName with
          | none => rw [hr] at h; simp at h
          | some r =>
            rw [hr] at h
            exact ⟨r, rfl, mem_lowerList_iff.mp h⟩
      · rcases hG with h | h
        · left
          have := lowerList_isEmpty (l := cfg.includeTags.getD [])
          rw [h] at this
          exact List.isEmpty_iff.mp this.symm
        · right
          rcases List.any_eq_true.mp h with ⟨tg, htg, hc⟩
          exact ⟨tg, htg, mem_lowerList_iff.mp hc⟩
    · rintro ⟨hO, hR, hG⟩
      refine ⟨⟨?_, ?_⟩, ?_⟩
      · rw [Bool.or_eq_true]
        rcases hO with h | ⟨m, hm, hmem⟩
        · left
          rw [← lowerList_isEmpty, h]
          rfl
        · right
          rw [hm]
          exact mem_lowerList_iff.mpr hmem
      · rw [Bool.or_eq_true]
        rcases hR with h | ⟨r, hr, hmem⟩
        · left
          rw [← lowerList_isEmpty, h]
          rfl
        · right
          rw [hr]
          exact mem_lowerList_iff.mpr hmem
      · rw [Bool.or_eq_true]
        rcases hG with h | ⟨tg, htg, hmem⟩
        · left
          rw [← lowerList_isEmpty, h]
          rfl
        · right
          exact List.any_eq_true.mpr ⟨tg, htg, mem_lowerList_iff.mpr hmem⟩
  · rw [if_pos (show (!(lowerList (cfg.includeTools.getD [])).isEmpty) = true from by
      cases hc : cfg.includeTools.getD [] with
      | nil => exact absurd hc hT
      | cons a l' => rfl)]
    rw [if_pos hT]
    rw [Bool.or_eq_true]
    constructor
    · rintro (h | h)
      · rcases mem_lowerList_iff.mp h with ⟨s, hs, he⟩
        exact ⟨s, hs, Or.inl he⟩
      · rcases mem_lowerList_iff.mp h with ⟨s, hs, he⟩
        exact ⟨s, hs, Or.inr he⟩
    · rintro ⟨s, hs, he | he⟩
      · exact Or.inl (mem_lowerList_iff.mpr ⟨s, hs, he⟩)
      · exact Or.inr (mem_lowerList_iff.mpr ⟨s, hs, he⟩)

end Manager

namespace Manager

/-- C2 (amended): in toolsMode `all`, the registry after initialisation
contains a synthesised tool precisely when it was synthesised and passes
the filters, where a non-empty `includeTools` keeps exactly the tools whose
id or name matches one of its entries case-insensitively (skipping every
other filter, and dropping all non-matching tools); with `includeTools`
empty or absent, the non-empty filters must all pass: the tool's
`httpMethod` appears in `includeOperations`, the tool's `resourceName`
(its first path segment) appears — as a whole, case-insensitively, not as
a prefix of `originalPath` — in `includeResources`, and some tag appears
in `includeTags`. -/
theorem allMode_membership (cfg : Config) (raw : List (String × ExtendedTool))
    (tid : String) (t : ExtendedTool)
    (hmode : effectiveToolsMode cfg = "all") :
    (tid, t) ∈ initializeTools cfg raw ↔
      (tid, t) ∈ raw ∧
      (if cfg.includeTools.getD [] ≠ [] then
        ∃ s ∈ cfg.includeTools.getD [], strLower s = strLower tid ∨ strLower s = strLower t.name
      else
        (cfg.includeOperations.getD [] = [] ∨
          ∃ m, t.httpMethod = some m ∧
            ∃ s ∈ cfg.includeOperations.getD [], strLower s = strLower m) ∧
        (cfg.includeResources.getD [] = [] ∨
          ∃ r, t.resourceName = some r ∧
            ∃ s ∈ cfg.includeResources.getD [], strLower s = strLower r) ∧
        (cfg.includeTags.getD [] = [] ∨
          ∃ tg ∈ t.tags.getD [], ∃ s ∈ cfg.includeTags.getD [], strLower s = strLower tg)) := by
  unfold initializeTools
  rw [if_neg (by rw [hmode]; decide), if_neg (by rw [hmode]; decide)]
  rw [List.mem_filter]
  rw [allModeKeep_iff cfg tid t]

/-- C2 counterexample: in toolsMode `all` with `includeResources = ["/users"]`,
the synthesised tool for GET on path `(slash)users(slash)detail` — whose
`originalPath` has the entry as a prefix, so the claim keeps it — is
dropped by the code, which compares entries against the tool's
`resourceName` (`users`) by case-insensitive equality: the registry comes
out empty. -/
theorem allMode_resources_counterexample :
    claimResourcesKeep cfgResources toolUsers = true ∧
    initializeTools cfgResources rawUsers = [] := by
  constructor
  · rfl
  · rfl

/-- C2 witness: the amended membership law applied to an unfiltered `all`
configuration and the sample registry. -/
theorem allMode_membership_witness :
    (("GET::users__detail"), toolUsers) ∈ initializeTools cfgAllNone rawUsers :=
  (allMode_membership cfgAllNone rawUsers ("GET::users__detail") toolUsers rfl).mpr
    ⟨by simp [rawUsers], by simp [cfgAllNone]⟩

/-- C3: in toolsMode `explicit`, an empty or absent `includeTools` yields an
empty registry regardless of the other filters; a non-empty `includeTools`
keeps exactly the synthesised tools whose id or name matches one of its
entries (case-insensitively). -/
theorem initializeTools_explicit_eq (cfg : Config) (raw : List (String × ExtendedTool))
    (ts : List String) (hmode : effectiveToolsMode cfg = "explicit")
    (hts : cfg.includeTools = some ts) :
    initializeTools cfg raw =
      if 0 < ts.length then
        raw.filter (fun p => (lowerList ts).contains (strLower p.1) ||
          (lowerList ts).contains (strLower p.2.name))
      else [] := by
  unfold initializeTools
  rw [if_neg (by rw [hmode]; decide), if_pos (by rw [hmode]), hts]

theorem initializeTools_explicit_none (cfg : Config) (raw : List (String × ExtendedTool))
    (hmode : effectiveToolsMode cfg = "explicit") (hts : cfg.includeTools = none) :
    initializeTools cfg raw = [] := by
  unfold initializeTools
  rw [if_neg (by rw [hmode]; decide), if_pos (by rw [hmode]), hts]

/-- C3: in toolsMode `explicit`, an empty or absent `includeTools` yields an
empty registry regardless of the other filters; a non-empty `includeTools`
keeps exactly the synthesised tools whose id or name matches one of its
entries (case-insensitively). -/
theorem explicitMode_theorem (cfg : Config) (raw : List (String × ExtendedTool))
    (hmode : effectiveToolsMode cfg = "explicit") :
    ((cfg.includeTools = none ∨ cfg.includeTools = some []) →
      initializeTools cfg raw = []) ∧
    (∀ ts, cfg.includeTools = some ts → ts ≠ [] →
      ∀ tid t, ((tid, t) ∈ initializeTools cfg raw ↔
        (tid, t) ∈ raw ∧
          ∃ s ∈ ts, strLower s = strLower tid ∨ strLower s = strLower t.name)) := by
  constructor
  · rintro (h | h)
    · exact initializeTools_explicit_none cfg raw hmode h
    · rw [initializeTools_explicit_eq cfg raw [] hmode h]
      rfl
  · intro ts hts hne tid t
    rw [initializeTools_explicit_eq cfg raw ts hmode hts]
    rw [if_pos (show 0 < ts.length from by
      cases ts with
      | nil => exact absurd rfl hne
      | cons a l => simp)]
    rw [List.mem_filter]
    constructor
    · rintro ⟨hmem, hk⟩
      rw [Bool.or_eq_true] at hk
      refine ⟨hmem, ?_⟩
      rcases hk with h | h
      · rcases mem_lowerList_iff.mp h with ⟨s, hs, he⟩
        exact ⟨s, hs, Or.inl he⟩
      · rcases mem_lowerList_iff.mp h with ⟨s, hs, he⟩
        exact ⟨s, hs, Or.inr he⟩
    · rintro ⟨hmem, s, hs, he | he⟩
      · exact ⟨hmem, by
          rw [Bool.or_eq_true]
          exact Or.inl (mem_lowerList_iff.mpr ⟨s, hs, he⟩)⟩
      · exact ⟨hmem, by
          rw [Bool.or_eq_true]
          exact Or.inr (mem_lowerList_iff.mpr ⟨s, hs, he⟩)⟩

/-- C3 witness: `explicit` mode with `includeTools = []` and every other
filter set still yields an empty registry. -/
theorem explicitMode_witness :
    initializeTools cfgExplicitEmpty rawUsers = [] :=
  (explicitMode_theorem cfgExplicitEmpty rawUsers rfl).1 (Or.inr rfl)

/-- C4: in toolsMode `dynamic`, the registry after initialisation is
exactly the three fixed meta-tools — named `list-api-endpoints`,
`get-api-endpoint-schema` and `invoke-api-endpoint` — irrespective of the
synthesised tools, which are all discarded. -/
theorem dynamicMode_theorem (cfg : Config) (raw : List (String × ExtendedTool))
    (hmode : effectiveToolsMode cfg = "dynamic") :
    initializeTools cfg raw = createDynamicTools ∧
    (initializeTools cfg raw).map (fun p => p.2.name) =
      ["list-api-endpoints", "get-api-endpoint-schema", "invoke-api-endpoint"] := by
  have h : initializeTools cfg raw = createDynamicTools := by
    unfold initializeTools
    rw [if_pos (by rw [hmode])]
  exact ⟨h, by rw [h]; rfl⟩

/-- C4 witness: the dynamic-mode law applied to the sample registry. -/
theorem dynamicMode_witness :
    initializeTools cfgDynamic rawUsers = createDynamicTools ∧
    (initializeTools cfgDynamic rawUsers).map (fun p => p.2.name) =
      ["list-api-endpoints", "get-api-endpoint-schema", "invoke-api-endpoint"] :=
  dynamicMode_theorem cfgDynamic rawUsers rfl

end Manager

namespace Server

theorem findToolEntry_none_iff (tools : List (String × Manager.ExtendedTool)) (s : String) :
    Manager.findToolEntry tools s = none ↔
      ∀ p ∈ tools, strLower p.1 ≠ strLower s ∧ strLower p.2.name ≠ strLower s := by
  unfold Manager.findToolEntry
  cases h1 : tools.find? (fun p => strLower p.1 = strLower s) with
  | some q =>
    simp only []
    constructor
    · intro h
      cases h
    · intro h
      have hq := List.find?_some h1
      have hqm := List.mem_of_find?_eq_some h1
      rw [decide_eq_true_eq] at hq
      exact absurd hq (h q hqm).1
  | none =>
    simp only []
    rw [List.find?_eq_none] at h1
    rw [List.find?_eq_none]
    constructor
    · intro h2
      intro p hp
      refine ⟨?_, ?_⟩
      · have := h1 p hp
        rw [decide_eq_true_eq] at this
        exact this
      · have := h2 p hp
        rw [decide_eq_true_eq] at this
        exact this
    · intro h p hp
      rw [decide_eq_true_eq]
      exact (h p hp).2

theorem findToolEntry_id_match (tools : List (String × Manager.ExtendedTool)) (s : String)
    (h : ∃ p ∈ tools, strLower p.1 = strLower s) :
    ∃ q, Manager.findToolEntry tools s = some q ∧ strLower q.1 = strLower s := by
  unfold Manager.findToolEntry
  have hsome : (tools.find? (fun p => strLower p.1 = strLower s)).isSome := by
    rw [List.find?_isSome]
    obtain ⟨p, hp, he⟩ := h
    exact ⟨p, hp, by rw [decide_eq_true_eq]; exact he⟩
  cases h1 : tools.find? (fun p => strLower p.1 = strLower s) with
  | none => rw [h1] at hsome; cases hsome
  | some q =>
    have hq := List.find?_some h1
    rw [decide_eq_true_eq] at hq
    exact ⟨q, rfl, hq⟩

theorem findToolEntry_name_match (tools : List (String × Manager.ExtendedTool)) (s : String)
    (hid : ∀ p ∈ tools, strLower p.1 ≠ strLower s)
    (h : ∃ p ∈ tools, strLower p.2.name = strLower s) :
    ∃ q, Manager.findToolEntry tools s = some q ∧ strLower q.2.name = strLower s := by
  unfold Manager.findToolEntry
  have h1 : tools.find? (fun p => strLower p.1 = strLower s) = none := by
    rw [List.find?_eq_none]
    intro p hp
    rw [decide_eq_true_eq]
    exact hid p hp
  rw [h1]
  have hsome : (tools.find? (fun p => strLower p.2.name = strLower s)).isSome := by
    rw [List.find?_isSome]
    obtain ⟨p, hp, he⟩ := h
    exact ⟨p, hp, by rw [decide_eq_true_eq]; exact he⟩
  cases h2 : tools.find? (fun p => strLower p.2.name = strLower s) with
  | none => rw [h2] at hsome; cases hsome
  | some q =>
    have hq := List.find?_some h2
    rw [decide_eq_true_eq] at hq
    exact ⟨q, rfl, hq⟩

/-- C5: a `tools/call` target string resolves against the OpenAPI tools
first — comparing case-insensitively with tool ids, then with tool names —
and falls back to the custom-tool map under the exact string; when neither
matches, the lookup yields the `Tool not found` error. -/
theorem resolveCallTarget_theorem (oa : List (String × Manager.ExtendedTool))
    (ct : List (String × CustomToolDef)) (s : String) :
    (resolveCallTarget oa ct s = CallTarget.notFound ("Tool not found: " ++ s) ↔
      (∀ p ∈ oa, strLower p.1 ≠ strLower s ∧ strLower p.2.name ≠ strLower s) ∧
      lookupAssoc ct s = none) ∧
    ((∃ p ∈ oa, strLower p.1 = strLower s) →
      ∃ tid t, resolveCallTarget oa ct s = CallTarget.openapi tid t ∧
        strLower tid = strLower s) ∧
    ((∀ p ∈ oa, strLower p.1 ≠ strLower s) →
      (∃ p ∈ oa, strLower p.2.name = strLower s) →
      ∃ tid t, resolveCallTarget oa ct s = CallTarget.openapi tid t ∧
        strLower t.name = strLower s) ∧
    (∀ c, (∀ p ∈ oa, strLower p.1 ≠ strLower s ∧ strLower p.2.name ≠ strLower s) →
      lookupAssoc ct s = some c → resolveCallTarget oa ct s = CallTarget.custom c) := by
  refine ⟨?_, ?_, ?_, ?_⟩
  · unfold resolveCallTarget
    constructor
    · intro h
      cases hf : Manager.findToolEntry oa s with
      | some q => rw [hf] at h; cases h
      | none =>
        rw [hf] at h
        cases hc : lookupAssoc ct s with
        | some c => rw [hc] at h; cases h
        | none => exact ⟨(findToolEntry_none_iff oa s).mp hf, rfl⟩
    · rintro ⟨hoa, hct⟩
      rw [(findToolEntry_none_iff oa s).mpr hoa, hct]
  · intro h
    obtain ⟨q, hq, he⟩ := findToolEntry_id_match oa s h
    refine ⟨q.1, q.2, ?_, he⟩
    unfold resolveCallTarget
    rw [hq]
  · intro hid h
    obtain ⟨q, hq, he⟩ := findToolEntry_name_match oa s hid h
    refine ⟨q.1, q.2, ?_, he⟩
    unfold resolveCallTarget
    rw [hq]
  · intro c hoa hct
    unfold resolveCallTarget
    rw [(findToolEntry_none_iff oa s).mpr hoa, hct]

/-- C5 witness: resolving against an empty registry and an empty custom map
yields the `Tool not found` error, by the resolution law. -/
theorem resolveCallTarget_witness :
    resolveCallTarget [] [] ("ping") = CallTarget.notFound ("Tool not found: ping") :=
  (resolveCallTarget_theorem [] [] ("ping")).1.mpr ⟨by simp, rfl⟩

/-- C6 counterexample: a custom tool whose handler throws a value that is
not an `Error` instance (here the bare string `boom`) is re-thrown by the
handler's catch block instead of being wrapped into an MCP result with
`isError` — the claim's "never propagated" fails. -/
theorem errorWrap_counterexample :
    handleCustomOutcome (Except.error (Thrown.nonError ("boom"))) =
      Except.error (Thrown.nonError ("boom")) ∧
    ¬ ∃ r, handleCustomOutcome (Except.error (Thrown.nonError ("boom"))) = Except.ok r := by
  refine ⟨rfl, ?_⟩
  rintro ⟨r, hr⟩
  exact Except.noConfusion hr

/-- C6 (amended): every thrown `Error` instance — from the request executor
on OpenAPI tools or from a custom tool's handler — is returned inside the
MCP result as a `text` content item carrying `Error: ` plus the message,
with `isError` true, and is not propagated; a thrown value that is not an
`Error` instance is re-thrown to the protocol layer; successful results
pass through with `isError` false (custom handlers return their result
verbatim). -/
theorem errorWrap_amended :
    (∀ msg, handleOpenApiOutcome (Except.error (Thrown.errorInstance msg)) =
      Except.ok ⟨[⟨"text", "Error: " ++ msg⟩], true⟩) ∧
    (∀ msg, handleCustomOutcome (Except.error (Thrown.errorInstance msg)) =
      Except.ok ⟨[⟨"text", "Error: " ++ msg⟩], true⟩) ∧
    (∀ v, handleOpenApiOutcome (Except.error (Thrown.nonError v)) =
      Except.error (Thrown.nonError v)) ∧
    (∀ v, handleCustomOutcome (Except.error (Thrown.nonError v)) =
      Except.error (Thrown.nonError v)) ∧
    (∀ r, handleCustomOutcome (Except.ok r) = Except.ok r) ∧
    (∀ payload, handleOpenApiOutcome (Except.ok payload) =
      Except.ok ⟨[⟨"text", payload⟩], false⟩) :=
  ⟨fun _ => rfl, fun _ => rfl, fun _ => rfl, fun _ => rfl, fun _ => rfl, fun _ => rfl⟩

/-- C9: registering a custom tool under a name that is already taken fails
with the `already exists` error, and the previously registered definition
is still the one found under that name. -/
theorem registerTool_theorem (m : List (String × CustomToolDef)) (nm : String)
    (d : CustomToolDef) (d' : CustomToolBody) (h : lookupAssoc m nm = some d) :
    registerTool m nm d' =
      Except.error ("Tool with name \x27" ++ nm ++ "\x27 already exists") ∧
    lookupAssoc m nm = some d := by
  refine ⟨?_, h⟩
  unfold registerTool
  rw [if_pos (by rw [h]; rfl)]

/-- C9 witness: re-registering `add` over the sample map fails and leaves
the original definition in place. -/
theorem registerTool_witness :
    registerTool sampleCustomTools ("add") sampleBody =
      Except.error ("Tool with name \x27add\x27 already exists") ∧
    lookupAssoc sampleCustomTools ("add") = some sampleCustomTool :=
  registerTool_theorem sampleCustomTools ("add") sampleCustomTool sampleBody rfl

end Server

namespace Prompts

theorem renderF_nil (args : List (String × String)) (f : Nat) : renderF args f [] = [] := by
  cases f <;> rfl

theorem takeWord_concat : ∀ (l : List Char), (takeWord l).1 ++ (takeWord l).2 = l := by
  intro l
  induction l with
  | nil => rfl
  | cons c rest ih =>
    by_cases hc : isWordChar c = true
    · simp only [takeWord, hc, if_true]
      simpa using ih
    · simp [takeWord, hc]

theorem takeWord_exact (w r : List Char) (hwc : ∀ c ∈ w, isWordChar c = true) :
    takeWord (w ++ '}' :: r) = (w, '}' :: r) := by
  induction w with
  | nil =>
    simp [takeWord, show isWordChar '}' = false from rfl]
  | cons c w' ih =>
    have hc : isWordChar c = true := hwc c (by simp)
    have ih' := ih (fun d hd => hwc d (by simp [hd]))
    simp [takeWord, hc, ih']

theorem placeholderSplit_some_length {l w r2 : List Char}
    (h : placeholderSplit l = some (w, r2)) : r2.length + 2 ≤ l.length := by
  unfold placeholderSplit at h
  have hcat := takeWord_concat l
  by_cases he : (takeWord l).1.isEmpty
  · rw [if_pos he] at h
    cases h
  · rw [if_neg he] at h
    cases hr : (takeWord l).2 with
    | nil => rw [hr] at h; cases h
    | cons c1 m =>
      cases m with
      | nil => rw [hr] at h; cases h
      | cons c2 r2' =>
        rw [hr] at h
        have h' : (if (c1 = '}' && c2 = '}') = true then
            some ((takeWord l).1, r2') else none) = some (w, r2) := h
        by_cases hbr : (c1 = '}' && c2 = '}') = true
        · rw [if_pos hbr] at h'
          have hr2 : r2' = r2 := by
            have := congrArg Prod.snd (Option.some.inj h')
            simpa using this
          subst hr2
          rw [hr] at hcat
          have := congrArg List.length hcat
          simp at this
          omega
        · rw [if_neg hbr] at h'
          cases h'

theorem renderF_placeholder_step (args : List (String × String)) (f : Nat)
    {c1 c2 : Char} {rest w r2 : List Char} (hbr : (c1 = '{' && c2 = '{') = true)
    (hps : placeholderSplit rest = some (w, r2)) :
    renderF args (f + 1) (c1 :: c2 :: rest) = argValue args w ++ renderF args f r2 := by
  simp [renderF, hbr, hps]

theorem renderF_nosplit_step (args : List (String × String)) (f : Nat)
    {c1 c2 : Char} {rest : List Char} (hbr : (c1 = '{' && c2 = '{') = true)
    (hps : placeholderSplit rest = none) :
    renderF args (f + 1) (c1 :: c2 :: rest) = c1 :: renderF args f (c2 :: rest) := by
  simp [renderF, hbr, hps]

theorem renderF_nobrace_step (args : List (String × String)) (f : Nat)
    {c1 c2 : Char} {rest : List Char} (hbr : (c1 = '{' && c2 = '{') = false) :
    renderF args (f + 1) (c1 :: c2 :: rest) = c1 :: renderF args f (c2 :: rest) := by
  simp [renderF, hbr]

theorem renderF_fuel_irrel (args : List (String × String)) :
    ∀ (f1 f2 : Nat) (l : List Char), l.length ≤ f1 → l.length ≤ f2 →
      renderF args f1 l = renderF args f2 l := by
  intro f1
  induction f1 with
  | zero =>
    intro f2 l h1 h2
    have : l = [] := by cases l <;> simp_all
    subst this
    rw [renderF_nil, renderF_nil]
  | succ f1 ih =>
    intro f2 l h1 h2
    cases l with
    | nil => rw [renderF_nil, renderF_nil]
    | cons c1 rest =>
      cases f2 with
      | zero => simp at h2
      | succ f2 =>
        cases rest with
        | nil => rfl
        | cons c2 rest2 =>
          simp only [List.length_cons] at h1 h2
          by_cases hbr : (c1 = '{' && c2 = '{') = true
          · cases hps : placeholderSplit rest2 with
            | none =>
              rw [renderF_nosplit_step args f1 hbr hps,
                renderF_nosplit_step args f2 hbr hps]
              rw [ih f2 (c2 :: rest2) (by simp; omega) (by simp; omega)]
            | some p =>
              obtain ⟨w, r2⟩ := p
              have hlen := placeholderSplit_some_length hps
              rw [renderF_placeholder_step args f1 hbr hps,
                renderF_placeholder_step args f2 hbr hps]
              rw [ih f2 r2 (by omega) (by omega)]
          · have hbr' : (c1 = '{' && c2 = '{') = false := by
              cases hb2 : (c1 = '{' && c2 = '{') with
              | false => rfl
              | true => exact absurd hb2 hbr
            rw [renderF_nobrace_step args f1 hbr', renderF_nobrace_step args f2 hbr']
            rw [ih f2 (c2 :: rest2) (by simp; omega) (by simp; omega)]

theorem renderF_plain_step (args : List (String × String)) {c : Char} (l : List Char)
    (f : Nat) (hc : c ≠ '{') : renderF args (f + 1) (c :: l) = c :: renderF args f l := by
  cases l with
  | nil => rw [renderF_nil]; rfl
  | cons c2 rest =>
    have hbr : (c = '{' && c2 = '{') = false := by
      simp [hc]
    rw [renderF_nobrace_step args f hbr]

theorem renderF_decomp (args : List (String × String)) (pre w post : List Char)
    (hpre : ∀ c ∈ pre, c ≠ '{') (hw : w ≠ []) (hwc : ∀ c ∈ w, isWordChar c = true) :
    renderF args (pre ++ '{' :: '{' :: (w ++ '}' :: '}' :: post)).length
        (pre ++ '{' :: '{' :: (w ++ '}' :: '}' :: post)) =
      pre ++ argValue args w ++ renderF args post.length post := by
  induction pre with
  | nil =>
    simp only [List.nil_append]
    have hsplit : placeholderSplit (w ++ '}' :: '}' :: post) = some (w, post) := by
      unfold placeholderSplit
      rw [takeWord_exact w ('}' :: post) hwc]
      have hie : w.isEmpty = false := by
        cases w with
        | nil => exact absurd rfl hw
        | cons _ _ => rfl
      simp [hie]
    rw [show ('{' :: '{' :: (w ++ '}' :: '}' :: post)).length =
        ((w ++ '}' :: '}' :: post).length + 1) + 1 from by simp]
    rw [renderF_placeholder_step args ((w ++ '}' :: '}' :: post).length + 1)
      (by decide) hsplit]
    rw [renderF_fuel_irrel args ((w ++ '}' :: '}' :: post).length + 1) post.length post
      (by simp; omega) (le_refl _)]
  | cons c pre' ih =>
    have hc : c ≠ '{' := hpre c (by simp)
    have ih' := ih (fun d hd => hpre d (by simp [hd]))
    rw [show (c :: pre') ++ '{' :: '{' :: (w ++ '}' :: '}' :: post) =
        c :: (pre' ++ '{' :: '{' :: (w ++ '}' :: '}' :: post)) from rfl]
    rw [show (c :: (pre' ++ '{' :: '{' :: (w ++ '}' :: '}' :: post))).length =
        (pre' ++ '{' :: '{' :: (w ++ '}' :: '}' :: post)).length + 1 from by simp]
    rw [renderF_plain_step args _ _ hc]
    rw [ih']
    rfl

theorem getD_false_eq_some_true {o : Option Bool} : o.getD false = true ↔ o = some true := by
  cases o with
  | none => simp
  | some b => cases b <;> simp

end Prompts

namespace Prompts

theorem getPrompt_none_step (prompts : List (String × PromptDef)) (nm : String)
    (args : Option (List (String × String))) (h : lookupAssoc prompts nm = none) :
    getPrompt prompts nm args = .error ("Prompt not found: " ++ nm) := by
  simp [getPrompt, h]

theorem getPrompt_missing_step (prompts : List (String × PromptDef)) (nm : String)
    (args : Option (List (String × String))) (d : PromptDef) (a : PromptArg)
    (hd : lookupAssoc prompts nm = some d)
    (hf : (d.arguments.getD []).find?
        (fun a => (a.required.getD false) && (lookupAssoc (args.getD []) a.name).isNone)
      = some a) :
    getPrompt prompts nm args = .error ("Missing required argument: " ++ a.name) := by
  simp [getPrompt, hd, hf]

theorem getPrompt_ok_step (prompts : List (String × PromptDef)) (nm : String)
    (args : Option (List (String × String))) (d : PromptDef)
    (hd : lookupAssoc prompts nm = some d)
    (hf : (d.arguments.getD []).find?
        (fun a => (a.required.getD false) && (lookupAssoc (args.getD []) a.name).isNone)
      = none) :
    getPrompt prompts nm args =
      .ok ⟨d.description,
        [⟨"user", ⟨"text", renderTemplate d.template (args.getD [])⟩⟩]⟩ := by
  simp [getPrompt, hd, hf]

/-- CLAIM C10: getPrompt errors exactly when the name is unregistered or a
required argument is missing; otherwise it returns one user text message
holding the rendered template, where every well-formed placeholder is
replaced by the supplied value, or by the empty string when the argument
is absent. -/
theorem getPrompt_theorem (prompts : List (String × PromptDef)) (nm : String)
    (args : Option (List (String × String))) :
    ((∃ e, getPrompt prompts nm args = .error e) ↔
      (lookupAssoc prompts nm = none ∨
        ∃ d, lookupAssoc prompts nm = some d ∧
          ∃ a ∈ d.arguments.getD [], a.required = some true ∧
            lookupAssoc (args.getD []) a.name = none)) ∧
    (∀ d, lookupAssoc prompts nm = some d →
      (∀ a ∈ d.arguments.getD [], a.required = some true →
        (lookupAssoc (args.getD []) a.name).isSome = true) →
      getPrompt prompts nm args =
        .ok ⟨d.description,
          [⟨"user", ⟨"text", renderTemplate d.template (args.getD [])⟩⟩]⟩) ∧
    (∀ pre w post, (∀ c ∈ pre, c ≠ '{') → w ≠ [] →
      (∀ c ∈ w, isWordChar c = true) →
      renderTemplate (String.mk (pre ++ '{' :: '{' :: (w ++ '}' :: '}' :: post)))
          (args.getD []) =
        String.mk (pre ++ argValue (args.getD []) w ++
          renderF (args.getD []) post.length post)) ∧
    (∀ w v, lookupAssoc (args.getD []) (String.mk w) = some v →
      argValue (args.getD []) w = v.toList) ∧
    (∀ w, lookupAssoc (args.getD []) (String.mk w) = none →
      argValue (args.getD []) w = []) := by
  refine ⟨?_, ?_, ?_, ?_, ?_⟩
  · cases hd : lookupAssoc prompts nm with
    | none =>
      constructor
      · intro _; exact Or.inl rfl
      · intro _; exact ⟨_, getPrompt_none_step prompts nm args hd⟩
    | some d =>
      cases hf : (d.arguments.getD []).find?
          (fun a => (a.required.getD false) && (lookupAssoc (args.getD []) a.name).isNone)
        with
      | none =>
        constructor
        · intro ⟨e, he⟩
          rw [getPrompt_ok_step prompts nm args d hd hf] at he
          exact Except.noConfusion he
        · intro h
          rcases h with h | ⟨d', hd', a, hmem, hreq, hnone⟩
          · exact Option.noConfusion h
          · injection hd' with h2
            subst h2
            have hnot := List.find?_eq_none.mp hf a hmem
            exfalso
            apply hnot
            rw [Bool.and_eq_true]
            exact ⟨getD_false_eq_some_true.mpr hreq,
              Option.isNone_iff_eq_none.mpr hnone⟩
      | some a =>
        constructor
        · intro _
          have hmem := List.mem_of_find?_eq_some hf
          have hpred := List.find?_some hf
          rw [Bool.and_eq_true] at hpred
          exact Or.inr ⟨d, rfl, a, hmem, getD_false_eq_some_true.mp hpred.1,
            Option.isNone_iff_eq_none.mp hpred.2⟩
        · intro _
          exact ⟨_, getPrompt_missing_step prompts nm args d a hd hf⟩
  · intro d hd hsupp
    have hf : (d.arguments.getD []).find?
        (fun a => (a.required.getD false) && (lookupAssoc (args.getD []) a.name).isNone)
      = none := by
      rw [List.find?_eq_none]
      intro a hmem hpred
      rw [Bool.and_eq_true] at hpred
      have hreq := getD_false_eq_some_true.mp hpred.1
      have hsome := hsupp a hmem hreq
      rw [Option.isNone_iff_eq_none.mp hpred.2] at hsome
      simp at hsome
    exact getPrompt_ok_step prompts nm args d hd hf
  · intro pre w post hpre hw hwc
    have hrt : renderTemplate
        (String.mk (pre ++ '{' :: '{' :: (w ++ '}' :: '}' :: post))) (args.getD []) =
        String.mk (renderF (args.getD [])
          (pre ++ '{' :: '{' :: (w ++ '}' :: '}' :: post)).length
          (pre ++ '{' :: '{' :: (w ++ '}' :: '}' :: post))) := rfl
    rw [hrt, renderF_decomp (args.getD []) pre w post hpre hw hwc]
  · intro w v hv
    simp [argValue, hv]
  · intro w hv
    simp [argValue, hv]

theorem getPrompt_witness :
    getPrompt demoPrompts "plan" (some [("task", "demo")]) =
      .ok ⟨some "Plan a task",
        [⟨"user", ⟨"text", renderTemplate demoPlan.template [("task", "demo")]⟩⟩]⟩ ∧
    (∃ e, getPrompt demoPrompts "plan" (some []) = .error e) ∧
    (∃ e, getPrompt demoPrompts "zzz" none = .error e) := by
  refine ⟨?_, ?_, ?_⟩
  · exact (getPrompt_theorem demoPrompts "plan" (some [("task", "demo")])).2.1
      demoPlan (by rfl) (by decide)
  · exact (getPrompt_theorem demoPrompts "plan" (some [])).1.mpr
      (Or.inr ⟨demoPlan, rfl, ⟨"task", none, some true⟩, by decide, rfl, rfl⟩)
  · exact (getPrompt_theorem demoPrompts "zzz" none).1.mpr (Or.inl (by rfl))

end Prompts
